import Mathlib

/-! # chat-with-pdf: ingestion and retrieval pipeline

A shallow embedding of the backend services of the repository
(`pdfService.js`, `vectorService.js`, `chatService.js`, `server.js`) together
with theorems about the chunker, the fallback embedding, the batch upload and
the chat path.

JavaScript strings are sequences of UTF-16 code units; they are modelled as
lists of natural numbers (`JStr`), so that `.length`, `.slice` and `.trim`
count the same units as the source does.
-/

set_option autoImplicit false
set_option maxRecDepth 1000000

namespace ChatWithPdf

/-! ## Strings -/

/-- A JavaScript string: the list of its UTF-16 code units. -/
abbrev JStr := List Nat

/-- The code units of a string literal of the source (all of them are in the
basic multilingual plane, one unit per character). -/
def lit (s : String) : JStr := s.toList.map Char.toNat

/-- The characters matched by `\s` and removed by `String.prototype.trim`:
the ECMAScript WhiteSpace and LineTerminator code points. -/
def isJsSpace (c : Nat) : Bool :=
  c == 0x09 || c == 0x0A || c == 0x0B || c == 0x0C || c == 0x0D || c == 0x20 ||
  c == 0xA0 || c == 0x1680 || (0x2000 ≤ c && c ≤ 0x200A) || c == 0x2028 ||
  c == 0x2029 || c == 0x202F || c == 0x205F || c == 0x3000 || c == 0xFEFF

/-- The character class `[.!?]` of the sentence splitter. -/
def isTerminator (c : Nat) : Bool :=
  c == 0x2E || c == 0x21 || c == 0x3F

/-- The method `String.prototype.trim`. -/
def trim (s : JStr) : JStr :=
  (s.dropWhile isJsSpace).rdropWhile isJsSpace

/-- Prepend a code unit to the first piece of a split. -/
def consHead (c : Nat) : List JStr → List JStr
  | [] => [[c]]
  | p :: ps => (c :: p) :: ps

/-- Worker of `splitRuns`; the flag tells whether the previous code unit was a
separator, so that a maximal run of separators counts once. -/
def splitRunsAux (sep : Nat → Bool) : Bool → JStr → List JStr
  | _, [] => [[]]
  | prev, c :: cs =>
    if sep c then
      if prev then splitRunsAux sep true cs else [] :: splitRunsAux sep true cs
    else consHead c (splitRunsAux sep false cs)

/-- The call `s.split(/[C]+/)` for a character class `C` given as `sep`: the
pieces between maximal runs of separators, empty pieces at the ends included. -/
def splitRuns (sep : Nat → Bool) (s : JStr) : List JStr :=
  splitRunsAux sep false s

/-- The call `s.slice(-n)` for an integer `n ≥ 0`: the last `n` code units, and
the whole string when `n = 0` (as `-0` is `0`) or when `s` is shorter. -/
def sliceLast (s : JStr) (n : Nat) : JStr :=
  if n = 0 then s else s.drop (s.length - n)

/-- The method `Array.prototype.join(sep)` on an array of strings. -/
def jsJoin (sep : JStr) : List JStr → JStr
  | [] => []
  | [x] => x
  | x :: y :: zs => x ++ sep ++ jsJoin sep (y :: zs)

/-! ## pdfService.splitTextIntoChunks -/

/-- One element of the array returned by `splitTextIntoChunks`. -/
structure Chunk where
  text : JStr
  startIndex : Int
  endIndex : Int
  deriving DecidableEq, Repr

/-- The loop variables of `splitTextIntoChunks`. -/
structure ChunkState where
  chunks : List Chunk
  currentChunk : JStr
  currentSize : Nat
  deriving DecidableEq, Repr

/-- The object pushed onto `chunks` when the buffer `currentChunk` is closed. -/
def closeChunk (maxChunkSize overlap : Nat) (chunks : List Chunk) (currentChunk : JStr) :
    Chunk :=
  { text := trim currentChunk
    startIndex := (chunks.length : Int) * ((maxChunkSize : Int) - (overlap : Int))
    endIndex := (chunks.length : Int) * ((maxChunkSize : Int) - (overlap : Int))
      + (currentChunk.length : Int) }

/-- The sentences of the text: `text.split(/[.!?]+/).filter(s => s.trim().length > 0)`. -/
def sentencesOf (text : JStr) : List JStr :=
  (splitRuns isTerminator text).filter (fun s => decide ((trim s).length > 0))

/-- One iteration of `for (const sentence of sentences)`. -/
def chunkStep (maxChunkSize overlap : Nat) (st : ChunkState) (sentence : JStr) : ChunkState :=
  let sentenceLength := (trim sentence).length
  if st.currentSize + sentenceLength > maxChunkSize ∧ st.currentChunk.length > 0 then
    let overlapText := sliceLast st.currentChunk overlap
    { chunks := st.chunks ++ [closeChunk maxChunkSize overlap st.chunks st.currentChunk]
      currentChunk := overlapText ++ lit " " ++ trim sentence
      currentSize := overlapText.length + sentenceLength + 1 }
  else
    { chunks := st.chunks
      currentChunk :=
        st.currentChunk ++ (if st.currentChunk ≠ [] then lit " " else lit "") ++ trim sentence
      currentSize := st.currentSize + sentenceLength + 1 }

/-- The state after the loop over the sentences. -/
def chunkLoop (maxChunkSize overlap : Nat) (sentences : List JStr) : ChunkState :=
  sentences.foldl (chunkStep maxChunkSize overlap)
    { chunks := [], currentChunk := [], currentSize := 0 }

/-- The "Add final chunk" step and the returned array. -/
def finishChunks (maxChunkSize overlap : Nat) (st : ChunkState) : List Chunk :=
  if (trim st.currentChunk).length > 0 then
    st.chunks ++ [closeChunk maxChunkSize overlap st.chunks st.currentChunk]
  else st.chunks

/-- The method `splitTextIntoChunks(text, maxChunkSize = 800, overlap = 100)`. -/
def splitTextIntoChunks (text : JStr) (maxChunkSize : Nat := 800) (overlap : Nat := 100) :
    List Chunk :=
  finishChunks maxChunkSize overlap (chunkLoop maxChunkSize overlap (sentencesOf text))

/-! ## Predicates used by the invariants of the chunker -/

/-- The string starts with a code unit that is not white space. -/
def StartsNonSpace (t : JStr) : Prop := ∃ c r, t = c :: r ∧ isJsSpace c = false

/-- The string ends with a code unit that is not white space. -/
def EndsNonSpace (t : JStr) : Prop := ∃ r c, t = r ++ [c] ∧ isJsSpace c = false

/-- The size bound of a buffer seeded with an overlap: at most
`maxChunkSize + overlap + 1` code units, unless it is one sentence longer than
`maxChunkSize` behind a seed of at most `overlap + 1` code units. -/
def SizeOk (maxChunkSize overlap : Nat) (sents : List JStr) (b : JStr) : Prop :=
  b.length ≤ maxChunkSize + overlap + 1 ∨
    ∃ s ∈ sents, maxChunkSize < (trim s).length ∧
      ∃ pre : JStr, b = pre ++ trim s ∧ pre.length ≤ overlap + 1

/-- The size bound of the first buffer: at most `maxChunkSize` code units,
unless it is one sentence longer than `maxChunkSize`. -/
def FirstOk (maxChunkSize : Nat) (sents : List JStr) (b : JStr) : Prop :=
  b.length ≤ maxChunkSize ∨ ∃ s ∈ sents, maxChunkSize < (trim s).length ∧ b = trim s

/-- The invariant of the chunking loop that bounds the sizes. -/
structure SizeInv (M ov : Nat) (S : List JStr) (st : ChunkState) : Prop where
  closed : ∀ c ∈ st.chunks, SizeOk M ov S c.text
  first : ∀ c ∈ st.chunks.head?, FirstOk M S c.text
  buf : SizeOk M ov S st.currentChunk
  size : st.currentChunk.length ≤ st.currentSize
  bufFirst : st.chunks = [] →
    (st.currentChunk = [] ∨ st.currentChunk.length + 1 ≤ st.currentSize) ∧
      FirstOk M S st.currentChunk

/-- A chunk text cut in two, `(seed, body)`: the seed is the part copied from
the end of the preceding chunk, the body is what the chunk adds. -/
abbrev ChunkParts := JStr × JStr

/-- The seed of `b` is a suffix of the text `a.1 ++ a.2` of the chunk before it. -/
def SeededFrom (a b : ChunkParts) : Prop := b.1 <:+ a.1 ++ a.2

/-- The invariant of the chunking loop that describes the texts: the closed
chunks are `parts`, the buffer is `q ++ r` with the seed `q`, and the bodies
put together are the sentences read so far, trimmed and joined by one space. -/
def Shape (ov : Nat) (done : List JStr) (st : ChunkState) : Prop :=
  ∃ (parts : List ChunkParts) (q r : JStr),
    done ≠ [] ∧
    st.chunks.map (fun c => c.text) = parts.map (fun p => p.1 ++ p.2) ∧
    st.currentChunk = q ++ r ∧
    ((q = [] ∧ StartsNonSpace r) ∨ EndsNonSpace q) ∧
    EndsNonSpace r ∧
    (parts.map (fun p => p.2)).flatten ++ r = jsJoin (lit " ") (done.map trim) ∧
    List.Chain' SeededFrom (parts ++ [(q.dropWhile isJsSpace, r)]) ∧
    (∀ p ∈ (parts ++ [(q.dropWhile isJsSpace, r)]).head?, p.1 = []) ∧
    (0 < ov → ∀ p ∈ parts ++ [(q.dropWhile isJsSpace, r)], p.1.length ≤ ov)

/-! ## vectorService: the fallback embedding -/

/-- The conversion `ToInt32`: wrap an integer to the signed 32-bit range. -/
def toInt32 (x : Int) : Int := (x + 2 ^ 31) % 2 ^ 32 - 2 ^ 31

/-- The expression `hash << 5`. -/
def shl5 (hash : Int) : Int := toInt32 (toInt32 hash * 32)

/-- One iteration of the loop of `simpleHash`: `hash = (hash << 5) - hash + char`
followed by `hash = hash & hash`. -/
def hashStep (hash : Int) (char : Nat) : Int := toInt32 (shl5 hash - hash + (char : Int))

/-- The function `Math.abs` on an integer. -/
def mathAbs (x : Int) : Int := (x.natAbs : Int)

/-- The method `simpleHash(str)`. -/
def simpleHash (str : JStr) : Int := mathAbs (str.foldl hashStep 0)

/-- The bucket of a token: `hash % 768`, where `%` is the remainder of
JavaScript, which takes the sign of the dividend. -/
def bucketOf (word : JStr) : Int := Int.tmod (simpleHash word) 768

/-- The statement `embedding[i] += 1`. For `i` negative JavaScript sets the
property named `i` and leaves the elements of the array as they are; an index
that is not below the length does not occur for a remainder modulo the length. -/
def bump (embedding : List Nat) (i : Int) : List Nat :=
  if 0 ≤ i then embedding.modify (fun v => v + 1) i.toNat else embedding

/-- The tokens: `text.toLowerCase().split(/\s+/).slice(0, 100)`. The case
mapping of the platform is the parameter `toLowerCase`. -/
def wordsOf (toLowerCase : JStr → JStr) (text : JStr) : List JStr :=
  (splitRuns isJsSpace (toLowerCase text)).take 100

/-- The array `embedding` after the `forEach` over the tokens. -/
def bucketCounts (toLowerCase : JStr → JStr) (text : JStr) : List Nat :=
  (wordsOf toLowerCase text).foldl (fun embedding word => bump embedding (bucketOf word))
    (List.replicate 768 0)

/-- The method `createSimpleEmbedding(text)` over an ordered field `F` that holds
the numbers of the platform. The two operations that round, `Math.sqrt` and the
division `val / magnitude`, are the parameters `sqrt` and `divide`; the counts
and the sum of their squares are small integers, on which `+` and `*` are
exact. -/
def createSimpleEmbedding {F : Type} [LinearOrderedField F] (sqrt : F → F)
    (divide : F → F → F) (toLowerCase : JStr → JStr) (text : JStr) : List F :=
  let embedding : List F := (bucketCounts toLowerCase text).map (fun v : Nat => (v : F))
  let magnitude := sqrt (embedding.foldl (fun sum val => sum + val * val) 0)
  embedding.map (fun val => if magnitude > 0 then divide val magnitude else 0)

/-- The L2 norm of a vector, for the square root `sqrt`. -/
def l2norm {F : Type} [LinearOrderedField F] (sqrt : F → F) (v : List F) : F :=
  sqrt ((v.map (fun x => x * x)).sum)

/-- The case mapping `toLowerCase` on ASCII letters, for concrete inputs. -/
def asciiLowerCase (s : JStr) : JStr :=
  s.map (fun c => if 65 ≤ c ∧ c ≤ 90 then c + 32 else c)

/-! ## vectorService: embedding provider and batch upload -/

/-- A thrown `Error`, with its `message`. -/
structure JsError where
  message : JStr
  deriving DecidableEq, Repr

/-- The `metadata` object stored with every vector. -/
structure Metadata where
  documentId : JStr
  fileName : JStr
  text : JStr
  chunkIndex : Nat
  startIndex : Int
  endIndex : Int
  deriving DecidableEq, Repr

/-- One element of the array handed to `index.upsert`. -/
structure VectorRecord (F : Type) where
  id : JStr
  values : List F
  metadata : Metadata

/-- The argument of `index.query`. -/
structure QueryRequest (F : Type) where
  vector : List F
  topK : Nat
  filter : JStr
  includeMetadata : Bool

/-- One element of `searchResponse.matches`. -/
structure Match (F : Type) where
  score : F
  metadata : Metadata

/-- The external services: the embedding model, the vector index and the
generation model, together with the platform functions `Math.sqrt`, the
division of numbers and `toLowerCase`. A call that throws gives `Except.error`; a query response
without a `matches` field gives `none`. -/
structure Services (F : Type) where
  sqrt : F → F
  divide : F → F → F
  toLowerCase : JStr → JStr
  embedContent : JStr → Except JsError (List F)
  upsert : List (VectorRecord F) → Except JsError Unit
  query : QueryRequest F → Except JsError (Option (List (Match F)))
  generateContent : JStr → Except JsError JStr

/-- The method `getEmbedding(text)`: the values of the provider, or the fallback
embedding when the provider throws. -/
def getEmbedding {F : Type} [LinearOrderedField F] (env : Services F) (text : JStr) : List F :=
  match env.embedContent text with
  | .ok values => values
  | .error _ => createSimpleEmbedding env.sqrt env.divide env.toLowerCase text

/-- Worker of `decimal`, most significant digit first. -/
def decimalAux : Nat → Nat → JStr
  | 0, _ => []
  | fuel + 1, n => if n < 10 then [n + 48] else decimalAux fuel (n / 10) ++ [n % 10 + 48]

/-- The string of a non-negative integer in a template literal: its decimal
digits. -/
def decimal (n : Nat) : JStr := decimalAux (n + 1) n

/-- The object pushed onto `vectors` in `processBatch` for the element at
`index` of the batch. -/
def mkRecord {F : Type} (documentId fileName : JStr) (startIndex index : Nat)
    (embedding : List F) (chunk : Chunk) : VectorRecord F :=
  { id := documentId ++ lit "_" ++ decimal (startIndex + index)
    values := embedding
    metadata :=
      { documentId := documentId
        fileName := fileName
        text := chunk.text
        chunkIndex := startIndex + index
        startIndex := chunk.startIndex
        endIndex := chunk.endIndex } }

/-- The loop `embeddings.forEach((embedding, index) => ...)` of `processBatch`,
from position `index` on; every embedding comes with `batch[index]`. -/
def pushVectors {F : Type} (documentId fileName : JStr) (startIndex : Nat) :
    Nat → List (List F × Chunk) → List (VectorRecord F)
  | _, [] => []
  | index, (embedding, chunk) :: rest =>
    (if embedding.length > 0 then
      [mkRecord documentId fileName startIndex index embedding chunk] else []) ++
      pushVectors documentId fileName startIndex (index + 1) rest

/-- The method `processBatch(batch, documentId, fileName, startIndex)`. -/
def processBatch {F : Type} [LinearOrderedField F] (env : Services F) (batch : List Chunk)
    (documentId fileName : JStr) (startIndex : Nat) : List (VectorRecord F) :=
  let embeddings := batch.map (fun chunk => getEmbedding env chunk.text)
  pushVectors documentId fileName startIndex 0 (embeddings.zip batch)

/-- The inner loop `for (let j = 0; j < 3 && i + j * 50 < chunks.length; j++)`:
the calls `(startIdx, batch)` of `processBatch` of one wave, from `j` on. -/
def waveBatches (chunks : List Chunk) (i : Nat) : Nat → Nat → List (Nat × List Chunk)
  | 0, _ => []
  | fuel + 1, j =>
    if j < 3 ∧ i + j * 50 < chunks.length then
      let startIdx := i + j * 50
      let endIdx := min (startIdx + 50) chunks.length
      (startIdx, (chunks.take endIdx).drop startIdx) :: waveBatches chunks i fuel (j + 1)
    else []

/-- The loop "Upsert all batches": the arrays handed to `index.upsert`, in call
order, and the error that stopped the loop, if any. -/
def upsertAll {F : Type} (env : Services F) :
    List (List (VectorRecord F)) → List (List (VectorRecord F)) × Option JsError
  | [] => ([], none)
  | vectors :: rest =>
    if vectors.length > 0 then
      match env.upsert vectors with
      | .ok _ => (vectors :: (upsertAll env rest).1, (upsertAll env rest).2)
      | .error e => ([vectors], some e)
    else upsertAll env rest

/-- What a run of the upload loop did: the calls of `processBatch` wave by wave,
the arrays handed to `index.upsert` in call order, and the error thrown, if any. -/
structure IngestTrace (F : Type) where
  batches : List (List (Nat × List Chunk))
  upserts : List (List (VectorRecord F))
  failure : Option JsError

/-- The outer loop `for (let i = 0; i < chunks.length; i += 150)`, from `i` on. -/
def waveLoop {F : Type} [LinearOrderedField F] (env : Services F) (documentId fileName : JStr)
    (chunks : List Chunk) : Nat → Nat → IngestTrace F
  | 0, _ => { batches := [], upserts := [], failure := none }
  | fuel + 1, i =>
    if i < chunks.length then
      let wave := waveBatches chunks i 3 0
      let batchResults := wave.map (fun b => processBatch env b.2 documentId fileName b.1)
      let done := upsertAll env batchResults
      match done.2 with
      | some e => { batches := [wave], upserts := done.1, failure := some e }
      | none =>
        let rest := waveLoop env documentId fileName chunks fuel (i + 150)
        { batches := wave :: rest.batches
          upserts := done.1 ++ rest.upserts
          failure := rest.failure }
    else { batches := [], upserts := [], failure := none }

/-- The batch upload of `processAndStoreDocument` for the chunk list `chunks`;
the loop runs at most once per chunk. -/
def storeChunks {F : Type} [LinearOrderedField F] (env : Services F) (documentId fileName : JStr)
    (chunks : List Chunk) : IngestTrace F :=
  waveLoop env documentId fileName chunks chunks.length 0

/-- The method `processAndStoreDocument(fileName, text)`, given the outcome of
`ensureIndexExists` and the identifier drawn by `uuidv4`. -/
def processAndStoreDocument {F : Type} [LinearOrderedField F] (env : Services F)
    (ensureIndexExists : Except JsError Unit) (documentId fileName text : JStr) :
    IngestTrace F :=
  match ensureIndexExists with
  | .error e => { batches := [], upserts := [], failure := some e }
  | .ok _ => storeChunks env documentId fileName (splitTextIntoChunks text 800 100)

/-! ## Notions used to state the properties of the batch upload -/

/-- The records expected for the chunks `cs` when the first of them has the
sequence index `k`: one record per chunk, in order. -/
def recordsFrom {F : Type} [LinearOrderedField F] (env : Services F)
    (documentId fileName : JStr) : Nat → List Chunk → List (VectorRecord F)
  | _, [] => []
  | k, c :: cs =>
    mkRecord documentId fileName k 0 (getEmbedding env c.text) c ::
      recordsFrom env documentId fileName (k + 1) cs

/-- The number written by a string of decimal digits. -/
def decimalValue (s : JStr) : Nat := s.foldl (fun a d => 10 * a + (d - 48)) 0

/-! ## Notions used to state the properties of the hash -/

/-- The polynomial sum of the code units `c_0 .. c_{n-1}` of a string: the sum
of `c_i * 31 ^ (n - 1 - i)`, over the integers. -/
def polySum : JStr → Int
  | [] => 0
  | c :: cs => (c : Int) * 31 ^ cs.length + polySum cs

/-- The recurrence `hash * 31 + charCode` over the integers, without any
truncation. -/
def hornerHash (s : JStr) : Int :=
  s.foldl (fun (hash : Int) (char : Nat) => hash * 31 + (char : Int)) 0

/-! ## vectorService.searchSimilarChunks, chatService.processQuery and the chat route -/

/-- The object handed to `index.query` by `searchSimilarChunks`. -/
def searchRequest {F : Type} [LinearOrderedField F] (env : Services F) (query documentId : JStr)
    (topK : Nat) : QueryRequest F :=
  { vector := getEmbedding env query
    topK := topK
    filter := documentId
    includeMetadata := true }

/-- What a call of `searchSimilarChunks` did: the requests issued to the index
and the returned matches or the error thrown. -/
structure SearchTrace (F : Type) where
  requests : List (QueryRequest F)
  result : Except JsError (List (Match F))

/-- The method `searchSimilarChunks(query, documentId, topK = 5)`; the `catch`
block throws the error again. -/
def searchSimilarChunks {F : Type} [LinearOrderedField F] (env : Services F)
    (query documentId : JStr) (topK : Nat := 5) : SearchTrace F :=
  { requests := [searchRequest env query documentId topK]
    result :=
      match env.query (searchRequest env query documentId topK) with
      | .ok searchResponse => .ok (searchResponse.getD [])
      | .error error => .error error }

/-- One element of `sources` in the result of `processQuery`. -/
structure Source (F : Type) where
  text : JStr
  score : F
  chunkIndex : Nat

/-- The object returned by `processQuery`. -/
structure ChatAnswer (F : Type) where
  answer : JStr
  sources : List (Source F)

/-- The answer returned when no chunk matches. -/
def noMatchAnswer : JStr :=
  lit "I couldn't find relevant information in the document to answer your question. Please try rephrasing your question or ask about different topics covered in the document."

/-- The answer built in the `catch` block of `processQuery`. -/
def errorAnswer (error : JsError) : JStr :=
  lit "I encountered an error while processing your question: " ++ error.message ++
    lit ". Please try again with a different question."

/-- The prompt sent to the generation model. -/
def promptOf (context userQuery : JStr) : JStr :=
  lit "\nBased on the following context from a document, please answer the user's question. Use only the information provided in the context. If the answer cannot be found in the context, please say so clearly.\n\nContext:\n" ++
    context ++ lit "\n\nQuestion: " ++ userQuery ++
    lit "\n\nPlease provide a helpful and accurate answer based only on the context provided:"

/-- The context of the prompt: the texts of the matches joined by blank lines. -/
def contextOf {F : Type} (similarChunks : List (Match F)) : JStr :=
  jsJoin (lit "\n\n") (similarChunks.map (fun chunk => chunk.metadata.text))

/-- The `sources` of a generated answer. -/
def sourcesOf {F : Type} (similarChunks : List (Match F)) : List (Source F) :=
  similarChunks.map (fun chunk =>
    { text := chunk.metadata.text.take 200 ++ lit "..."
      score := chunk.score
      chunkIndex := chunk.metadata.chunkIndex })

/-- What a call of `processQuery` did: the requests issued to the index, the
prompts sent to the generation model, and the returned object or the error
thrown. -/
structure QueryTrace (F : Type) where
  requests : List (QueryRequest F)
  prompts : List JStr
  outcome : Except JsError (ChatAnswer F)

/-- The `try` block of `processQuery`. -/
def processQueryTry {F : Type} [LinearOrderedField F] (env : Services F)
    (userQuery documentId : JStr) : QueryTrace F :=
  let search := searchSimilarChunks env userQuery documentId 5
  match search.result with
  | .error error => { requests := search.requests, prompts := [], outcome := .error error }
  | .ok similarChunks =>
    if similarChunks.length = 0 then
      { requests := search.requests
        prompts := []
        outcome := .ok { answer := noMatchAnswer, sources := [] } }
    else
      let prompt := promptOf (contextOf similarChunks) userQuery
      match env.generateContent prompt with
      | .error error =>
        { requests := search.requests, prompts := [prompt], outcome := .error error }
      | .ok answer =>
        { requests := search.requests
          prompts := [prompt]
          outcome := .ok { answer := answer, sources := sourcesOf similarChunks } }

/-- The method `processQuery(userQuery, documentId)`: the `try` block, and the
`catch` block that turns every error into an answer. -/
def processQuery {F : Type} [LinearOrderedField F] (env : Services F)
    (userQuery documentId : JStr) : QueryTrace F :=
  let attempt := processQueryTry env userQuery documentId
  match attempt.outcome with
  | .ok _ => attempt
  | .error error =>
    { requests := attempt.requests
      prompts := attempt.prompts
      outcome := .ok { answer := errorAnswer error, sources := [] } }

/-- The body of a response of the chat route. -/
inductive ChatBody (F : Type) where
  | success (response : ChatAnswer F)
  | error (error : JStr)

/-- A response of the chat route: status code and JSON body. -/
structure ChatResponse (F : Type) where
  status : Nat
  body : ChatBody F

/-- The test `!value` on a field of the request body that is a string or
missing. -/
def isFalsy (value : Option JStr) : Bool :=
  match value with
  | none => true
  | some s => s.isEmpty

/-- The route `POST /api/chat` on the request body `{ message, documentId }`. -/
def chatRoute {F : Type} [LinearOrderedField F] (env : Services F)
    (message documentId : Option JStr) : ChatResponse F :=
  if isFalsy message || isFalsy documentId then
    { status := 400, body := .error (lit "Message and documentId are required") }
  else
    match (processQuery env (message.getD []) (documentId.getD [])).outcome with
    | .ok response => { status := 200, body := .success response }
    | .error error => { status := 500, body := .error error.message }

/-! ## pdfService.extractTextFromPDF and the upload route -/

/-- The file system: the bytes stored under each path, if any. -/
abbrev FileSystem := JStr → Option (List Nat)

/-- The error thrown by the call `syscall` of `fs` for a path without a file. -/
def enoent (syscall path : JStr) : JsError :=
  { message :=
      lit "ENOENT: no such file or directory, " ++ syscall ++ lit " '" ++ path ++ lit "'" }

/-- The call `fs.readFileSync(path)`. -/
def readFileSync (files : FileSystem) (path : JStr) : Except JsError (List Nat) :=
  match files path with
  | some bytes => .ok bytes
  | none => .error (enoent (lit "open") path)

/-- The call `fs.existsSync(path)`. -/
def existsSync (files : FileSystem) (path : JStr) : Bool := (files path).isSome

/-- The file system after `fs.unlinkSync(path)` on an existing file. -/
def unlinkSync (files : FileSystem) (path : JStr) : FileSystem :=
  fun p => if p = path then none else files p

/-- The parser `pdfParse(dataBuffer, options)`: the argument besides the bytes is
the option `max` (0 for no page limit); the result is `pdfData.text`. -/
abbrev PdfParse := List Nat → Nat → Except JsError JStr

/-- Worker of `collapseSpace`; the flag tells whether the previous code unit was
white space. -/
def collapseSpaceAux : Bool → JStr → JStr
  | _, [] => []
  | prev, c :: cs =>
    if isJsSpace c then
      if prev then collapseSpaceAux true cs else 0x20 :: collapseSpaceAux true cs
    else c :: collapseSpaceAux false cs

/-- The call `.replace(/\s+/g, " ")`: every maximal run of white space becomes
one space. -/
def collapseSpace (s : JStr) : JStr := collapseSpaceAux false s

/-- The number of code units of `run` up to and including its last line feed. -/
def lastNewlineEnd : JStr → Option Nat
  | [] => none
  | c :: cs =>
    match lastNewlineEnd cs with
    | some k => some (k + 1)
    | none => if c = 0x0A then some 1 else none

/-- Worker of `collapseBlankLines`: at a line feed, the greedy `\s*` followed by
a line feed matches up to the last line feed of the white space that follows. -/
def collapseBlankLinesAux : Nat → JStr → JStr
  | 0, s => s
  | _ + 1, [] => []
  | fuel + 1, c :: cs =>
    if c = 0x0A then
      match lastNewlineEnd (cs.takeWhile isJsSpace) with
      | some k => 0x0A :: collapseBlankLinesAux fuel (cs.drop k)
      | none => c :: collapseBlankLinesAux fuel cs
    else c :: collapseBlankLinesAux fuel cs

/-- The call `.replace(/\n\s*\n/g, "\n")`. -/
def collapseBlankLines (s : JStr) : JStr := collapseBlankLinesAux s.length s

/-- The character class `[\x20-\x7E\n]` that is kept by the third `replace`. -/
def isKept (c : Nat) : Bool := (0x20 ≤ c && c ≤ 0x7E) || c == 0x0A

/-- The call `.replace(/[^\x20-\x7E\n]/g, "")`. -/
def stripNonPrintable (s : JStr) : JStr := s.filter isKept

/-- The value `cleanText` computed from `pdfData.text`. -/
def cleanText (text : JStr) : JStr :=
  trim (stripNonPrintable (collapseBlankLines (collapseSpace text)))

/-- What a call of `extractTextFromPDF` did: the option `max` of every call of
the parser, in order, and the returned text or the error thrown. -/
structure ExtractTrace where
  parserCalls : List Nat
  result : Except JsError JStr

/-- The error thrown by the outer `catch` block of `extractTextFromPDF`. -/
def extractionError (error : JsError) : JsError :=
  { message := lit "Failed to extract text from PDF: " ++ error.message }

/-- The error thrown for a cleaned text of fewer than 10 code units. -/
def emptyPdfError : JsError :=
  { message := lit "PDF appears to be empty or contains no extractable text" }

/-- The end of `extractTextFromPDF` once `pdfData.text` is known. -/
def finishExtraction (text : JStr) : Except JsError JStr :=
  if (cleanText text).isEmpty || decide ((cleanText text).length < 10) then
    .error (extractionError emptyPdfError)
  else .ok (cleanText text)

/-- The method `extractTextFromPDF(filePath)`. -/
def extractTextFromPDF (files : FileSystem) (pdfParse : PdfParse) (filePath : JStr) :
    ExtractTrace :=
  match readFileSync files filePath with
  | .error error => { parserCalls := [], result := .error (extractionError error) }
  | .ok dataBuffer =>
    match pdfParse dataBuffer 0 with
    | .ok text => { parserCalls := [0], result := finishExtraction text }
    | .error _ =>
      match pdfParse dataBuffer 200 with
      | .ok text => { parserCalls := [0, 200], result := finishExtraction text }
      | .error error => { parserCalls := [0, 200], result := .error (extractionError error) }

/-- The field `req.file` set by the upload middleware. -/
structure UploadedFile where
  path : JStr
  originalname : JStr
  deriving DecidableEq, Repr

/-- The JSON body of a response of the upload route. -/
inductive UploadBody where
  | success (documentId fileName : JStr) (textLength : Nat)
  | error (error : JStr) (details : Option JStr)
  deriving DecidableEq, Repr

/-- What a request to the upload route did: the status and body of the
response, the file system when the response is sent, the arguments of every
call of `processAndStoreDocument`, and the arrays handed to `index.upsert`. -/
structure UploadTrace (F : Type) where
  status : Nat
  body : UploadBody
  files : FileSystem
  storeCalls : List (JStr × JStr)
  upserts : List (List (VectorRecord F))

/-- The `catch` block of the upload route, entered with the variable `filePath`
and the file system as they are when the error is thrown. -/
def uploadCatch {F : Type} (files : FileSystem) (filePath : Option JStr) (error : JsError)
    (storeCalls : List (JStr × JStr)) (upserts : List (List (VectorRecord F))) :
    UploadTrace F :=
  { status := 500
    body := .error (lit "Server error during upload processing") (some error.message)
    files :=
      match filePath with
      | some path => if existsSync files path then unlinkSync files path else files
      | none => files
    storeCalls := storeCalls
    upserts := upserts }

/-- The route `POST /api/upload` on a request with the field `req.file`, given
the outcome of `ensureIndexExists` and the identifier drawn by `uuidv4`. -/
def uploadRoute {F : Type} [LinearOrderedField F] (env : Services F) (pdfParse : PdfParse)
    (ensureIndexExists : Except JsError Unit) (documentId : JStr) (files : FileSystem)
    (file : Option UploadedFile) : UploadTrace F :=
  match file with
  | none =>
    { status := 400, body := .error (lit "No file uploaded") none, files := files,
      storeCalls := [], upserts := [] }
  | some f =>
    match files f.path with
    | none => uploadCatch files (some f.path) (enoent (lit "stat") f.path) [] []
    | some bytes =>
      if bytes.length = 0 then
        { status := 400, body := .error (lit "Uploaded file is empty") none, files := files,
          storeCalls := [], upserts := [] }
      else
        match (extractTextFromPDF files pdfParse f.path).result with
        | .error error => uploadCatch files (some f.path) error [] []
        | .ok extractedText =>
          let stored :=
            processAndStoreDocument env ensureIndexExists documentId f.originalname extractedText
          match stored.failure with
          | some error =>
            uploadCatch (unlinkSync files f.path) none error
              [(f.originalname, extractedText)] stored.upserts
          | none =>
            { status := 200
              body := .success documentId f.originalname extractedText.length
              files := unlinkSync files f.path
              storeCalls := [(f.originalname, extractedText)]
              upserts := stored.upserts }

/-! ## Notions used to state the properties of the extraction -/

/-- The text obtained from the parser: that of the primary attempt, or else that
of the retry with a ceiling of 200 pages; `none` when both attempts throw. -/
def parsedText (pdfParse : PdfParse) (bytes : List Nat) : Option JStr :=
  match pdfParse bytes 0 with
  | .ok text => some text
  | .error _ =>
    match pdfParse bytes 200 with
    | .ok text => some text
    | .error _ => none

/-! ## Concrete services and inputs for the instances -/

/-- Services over the rationals in which every call succeeds: one-component
embeddings, an index that accepts every write and finds nothing, and a fixed
generated answer. -/
def demoServices : Services ℚ :=
  { sqrt := fun x => x
    divide := fun a b => a / b
    toLowerCase := asciiLowerCase
    embedContent := fun _ => .ok [1]
    upsert := fun _ => .ok ()
    query := fun _ => .ok (some [])
    generateContent := fun _ => .ok (lit "An answer.") }

/-- A list of 120 chunks. -/
def demoChunks : List Chunk :=
  List.replicate 120 { text := lit "a", startIndex := 0, endIndex := 1 }

/-- The metadata of a stored chunk. -/
def demoMetadata (documentId text : JStr) (chunkIndex : Nat) : Metadata :=
  { documentId := documentId
    fileName := lit "a.pdf"
    text := text
    chunkIndex := chunkIndex
    startIndex := 0
    endIndex := 11 }

/-- Three stored matches: two of the document `doc`, one of the document `other`. -/
def demoMatches : List (Match ℚ) :=
  [⟨1, demoMetadata (lit "doc") (lit "First chunk") 0⟩,
   ⟨1 / 2, demoMetadata (lit "other") (lit "Foreign chunk") 0⟩,
   ⟨1 / 4, demoMetadata (lit "doc") (lit "Second chunk") 1⟩]

/-- Services whose index holds `demoMatches` and honours the filter and `topK`,
and whose generation model always throws the error `quota`. -/
def demoFilterServices : Services ℚ :=
  { sqrt := fun x => x
    divide := fun a b => a / b
    toLowerCase := asciiLowerCase
    embedContent := fun _ => .ok [1]
    upsert := fun _ => .ok ()
    query := fun request =>
      .ok (some ((demoMatches.filter
        (fun m => decide (m.metadata.documentId = request.filter))).take request.topK))
    generateContent := fun _ => .error { message := lit "quota" } }

/-- Services whose index throws the error `index down` on every query. -/
def demoDownServices : Services ℚ :=
  { sqrt := fun x => x
    divide := fun a b => a / b
    toLowerCase := asciiLowerCase
    embedContent := fun _ => .ok [1]
    upsert := fun _ => .ok ()
    query := fun _ => .error { message := lit "index down" }
    generateContent := fun _ => .ok (lit "An answer.") }

/-- A file system that holds a three-byte file `uploads/a.pdf` and an empty file
`uploads/empty.pdf`. -/
def demoFiles : FileSystem := fun p =>
  if p = lit "uploads/a.pdf" then some [37, 80, 68]
  else if p = lit "uploads/empty.pdf" then some []
  else none

/-- A parser that always returns the text `hello é world`. -/
def demoParse : PdfParse := fun _ _ => .ok (lit "hello é world")

/-- A parser that throws the error `bad XRef` on every call. -/
def demoBrokenParse : PdfParse := fun _ _ => .error { message := lit "bad XRef" }

/-- Services whose index throws the error `write failed` on every call of
`upsert`, while the provider returns a one-component embedding. -/
def demoWriteDownServices : Services ℚ :=
  { sqrt := fun x => x
    divide := fun a b => a / b
    toLowerCase := asciiLowerCase
    embedContent := fun _ => .ok [1]
    upsert := fun _ => .error { message := lit "write failed" }
    query := fun _ => .ok (some [])
    generateContent := fun _ => .ok (lit "An answer.") }

/-- The double nearest to the square root of 2, `1.4142135623730951`. -/
def doubleSqrtTwo : ℚ := 6369051672525773 / 4503599627370496

/-- The double nearest to `1 / doubleSqrtTwo`, `0.7071067811865475`. -/
def doubleInvSqrtTwo : ℚ := 1592262918131443 / 2251799813685248

/-! ## Lemmas on trimming -/

theorem trim_length_le (s : JStr) : (trim s).length ≤ s.length := by
  unfold trim
  exact le_trans (List.rdropWhile_prefix isJsSpace _).length_le
    (List.dropWhile_suffix isJsSpace).length_le

theorem dropWhile_starts (s : JStr) (h : s.dropWhile isJsSpace ≠ []) :
    StartsNonSpace (s.dropWhile isJsSpace) := by
  induction s with
  | nil => simp at h
  | cons c r ih =>
    by_cases hc : isJsSpace c = true
    · rw [List.dropWhile_cons_of_pos hc] at h ⊢
      exact ih h
    · rw [List.dropWhile_cons_of_neg hc]
      exact ⟨c, r, rfl, by simpa using hc⟩

theorem trim_starts (s : JStr) (h : trim s ≠ []) : StartsNonSpace (trim s) := by
  unfold trim at h ⊢
  have hd : s.dropWhile isJsSpace ≠ [] := by
    intro h0
    rw [h0] at h
    simp [List.rdropWhile_nil] at h
  obtain ⟨c, r, hcr, hc⟩ := dropWhile_starts s hd
  rw [hcr] at h ⊢
  obtain ⟨t, ht⟩ := List.rdropWhile_prefix isJsSpace (c :: r)
  cases hrd : List.rdropWhile isJsSpace (c :: r) with
  | nil => exact absurd hrd h
  | cons a u =>
    rw [hrd] at ht
    simp at ht
    exact ⟨a, u, rfl, by rw [ht.1]; exact hc⟩

theorem trim_ends (s : JStr) (h : trim s ≠ []) : EndsNonSpace (trim s) := by
  unfold trim at h ⊢
  have hl := List.rdropWhile_last_not (p := isJsSpace) (l := s.dropWhile isJsSpace) h
  refine ⟨(List.rdropWhile isJsSpace (s.dropWhile isJsSpace)).dropLast,
    (List.rdropWhile isJsSpace (s.dropWhile isJsSpace)).getLast h, ?_, by simpa using hl⟩
  exact (List.dropLast_append_getLast h).symm

theorem dropWhile_append_starts (x t : JStr) (ht : StartsNonSpace t) :
    (x ++ t).dropWhile isJsSpace = x.dropWhile isJsSpace ++ t := by
  obtain ⟨c, r, rfl, hc⟩ := ht
  induction x with
  | nil => simp [List.dropWhile_cons, hc]
  | cons a x ih =>
    by_cases ha : isJsSpace a = true
    · simp [List.dropWhile_cons, ha, ih]
    · simp [List.dropWhile_cons, ha]

theorem dropWhile_append_ends (q r : JStr) (hq : EndsNonSpace q) :
    (q ++ r).dropWhile isJsSpace = q.dropWhile isJsSpace ++ r := by
  obtain ⟨x, c, rfl, hc⟩ := hq
  induction x with
  | nil => simp [List.dropWhile_cons, hc]
  | cons a x ih =>
    by_cases ha : isJsSpace a = true
    · simpa [List.dropWhile_cons, ha] using ih
    · simp [List.dropWhile_cons, ha]

theorem ends_append (x t : JStr) (ht : EndsNonSpace t) : EndsNonSpace (x ++ t) := by
  obtain ⟨r, c, rfl, hc⟩ := ht
  exact ⟨x ++ r, c, by simp, hc⟩

theorem dropWhile_ends (b : JStr) (hb : EndsNonSpace b) :
    EndsNonSpace (b.dropWhile isJsSpace) := by
  obtain ⟨x, c, rfl, hc⟩ := hb
  have h1 : ([c] : JStr).dropWhile isJsSpace = [c] := by simp [List.dropWhile_cons, hc]
  have : (x ++ [c]).dropWhile isJsSpace = x.dropWhile isJsSpace ++ [c] :=
    dropWhile_append_starts x [c] ⟨c, [], rfl, hc⟩
  rw [this]
  exact ⟨_, c, rfl, hc⟩

theorem rdropWhile_ends (b : JStr) (hb : EndsNonSpace b) : b.rdropWhile isJsSpace = b := by
  obtain ⟨x, c, rfl, hc⟩ := hb
  exact List.rdropWhile_concat_neg _ _ _ (by simp [hc])

theorem trim_of_ends (b : JStr) (hb : EndsNonSpace b) : trim b = b.dropWhile isJsSpace := by
  unfold trim
  exact rdropWhile_ends _ (dropWhile_ends b hb)


theorem trim_append_trim (x s : JStr) (hs : trim s ≠ []) :
    trim (x ++ trim s) = x.dropWhile isJsSpace ++ trim s := by
  rw [trim_of_ends _ (ends_append x _ (trim_ends s hs)),
    dropWhile_append_starts x _ (trim_starts s hs)]

theorem trim_trim (s : JStr) : trim (trim s) = trim s := by
  by_cases hs : trim s = []
  · rw [hs]; rfl
  · simpa using trim_append_trim [] s hs

theorem length_sliceLast_le (b : JStr) (n : Nat) (hn : 0 < n) : (sliceLast b n).length ≤ n := by
  unfold sliceLast
  rw [if_neg (by omega)]
  simp only [List.length_drop]
  omega

theorem length_lit_space : (lit " ").length = 1 := rfl

/-! ## Chunk sizes (C1) -/

theorem sizeOk_trim {M ov : Nat} {S : List JStr} {b : JStr} (h : SizeOk M ov S b) :
    SizeOk M ov S (trim b) := by
  rcases h with h | ⟨s, hs, hlen, pre, rfl, hpre⟩
  · exact Or.inl (le_trans (trim_length_le b) h)
  · refine Or.inr ⟨s, hs, hlen, pre.dropWhile isJsSpace, ?_, ?_⟩
    · exact trim_append_trim pre s (by intro h0; rw [h0] at hlen; simp at hlen)
    · exact le_trans (List.dropWhile_suffix isJsSpace).length_le hpre

theorem firstOk_trim {M : Nat} {S : List JStr} {b : JStr} (h : FirstOk M S b) :
    FirstOk M S (trim b) := by
  rcases h with h | ⟨s, hs, hlen, rfl⟩
  · exact Or.inl (le_trans (trim_length_le b) h)
  · exact Or.inr ⟨s, hs, hlen, trim_trim s⟩

theorem sizeInv_init (M ov : Nat) (S : List JStr) :
    SizeInv M ov S { chunks := [], currentChunk := [], currentSize := 0 } where
  closed := by simp
  first := by simp
  buf := Or.inl (by simp)
  size := by simp
  bufFirst := fun _ => ⟨Or.inl rfl, Or.inl (by simp)⟩

theorem sizeInv_step (M ov : Nat) (hov : 0 < ov) (S : List JStr) (st : ChunkState)
    (s : JStr) (hs : s ∈ S) (h : SizeInv M ov S st) :
    SizeInv M ov S (chunkStep M ov st s) := by
  unfold chunkStep
  simp only
  split
  next hc =>
    obtain ⟨hgt, hne⟩ := hc
    have hsl := length_sliceLast_le st.currentChunk ov hov
    refine ⟨?_, ?_, ?_, ?_, ?_⟩
    · intro c hc
      simp only [List.mem_append, List.mem_singleton] at hc
      rcases hc with hc | rfl
      · exact h.closed c hc
      · exact sizeOk_trim h.buf
    · intro c hc
      cases hch : st.chunks with
      | nil =>
        rw [hch] at hc
        simp at hc
        subst hc
        simpa [closeChunk] using firstOk_trim (h.bufFirst hch).2
      | cons a l =>
        rw [hch] at hc
        simp at hc
        subst hc
        exact h.first _ (by rw [hch]; simp)
    · simp only
      by_cases hlen : (trim s).length ≤ M
      · left
        simp only [List.length_append, length_lit_space]
        omega
      · right
        exact ⟨s, hs, by omega, sliceLast st.currentChunk ov ++ lit " ", by simp,
          by simp only [List.length_append, length_lit_space]; omega⟩
    · simp only [List.length_append, length_lit_space]
      omega
    · intro h0
      simp at h0
  next hc =>
    have hc' : st.currentSize + (trim s).length ≤ M ∨ st.currentChunk = [] := by
      by_cases h1 : st.currentSize + (trim s).length ≤ M
      · exact Or.inl h1
      · right
        by_contra h2
        exact hc ⟨by omega, List.length_pos.mpr h2⟩
    have hsz := h.size
    refine ⟨h.closed, h.first, ?_, ?_, ?_⟩
    · simp only
      by_cases hb : st.currentChunk = []
      · simp only [hb, ne_eq, not_true_eq_false, if_false, List.nil_append]
        by_cases hlen : (trim s).length ≤ M
        · left
          simp [lit]
          omega
        · right
          exact ⟨s, hs, by omega, [], by simp [lit], by simp⟩
      · left
        rcases hc' with h1 | h1
        · simp only [ne_eq, hb, not_false_eq_true, if_true, List.length_append,
            length_lit_space]
          omega
        · exact absurd h1 hb
    · simp only
      by_cases hb : st.currentChunk = []
      · simp [hb, lit]
        omega
      · simp only [ne_eq, hb, not_false_eq_true, if_true, List.length_append,
          length_lit_space]
        omega
    · intro h0
      simp only at h0
      obtain ⟨hA, hB⟩ := h.bufFirst h0
      simp only
      by_cases hb : st.currentChunk = []
      · simp only [hb, ne_eq, not_true_eq_false, if_false, List.nil_append]
        refine ⟨Or.inr (by simp [lit]), ?_⟩
        by_cases hlen : (trim s).length ≤ M
        · left
          simpa [lit] using hlen
        · right
          exact ⟨s, hs, by omega, by simp [lit]⟩
      · have hA' : st.currentChunk.length + 1 ≤ st.currentSize := by
          rcases hA with hA | hA
          · exact absurd hA hb
          · exact hA
        have h1 : st.currentSize + (trim s).length ≤ M := by
          rcases hc' with h1 | h1
          · exact h1
          · exact absurd h1 hb
        simp only [ne_eq, hb, not_false_eq_true, if_true]
        refine ⟨Or.inr ?_, Or.inl ?_⟩ <;>
          simp only [List.length_append, length_lit_space] <;> omega


theorem sizeInv_foldl (M ov : Nat) (hov : 0 < ov) (S done : List JStr)
    (hdone : ∀ s ∈ done, s ∈ S) (st : ChunkState) (h : SizeInv M ov S st) :
    SizeInv M ov S (done.foldl (chunkStep M ov) st) := by
  induction done generalizing st with
  | nil => exact h
  | cons s rest ih =>
    rw [List.foldl_cons]
    exact ih (fun x hx => hdone x (List.mem_cons_of_mem _ hx)) _
      (sizeInv_step M ov hov S st s (hdone s (List.mem_cons_self _ _)) h)

theorem sizeInv_finish (M ov : Nat) (S : List JStr) (st : ChunkState) (h : SizeInv M ov S st) :
    (∀ c ∈ (finishChunks M ov st).head?, FirstOk M S c.text) ∧
      ∀ c ∈ finishChunks M ov st, SizeOk M ov S c.text := by
  unfold finishChunks
  split
  · constructor
    · intro c hc
      cases hch : st.chunks with
      | nil =>
        rw [hch] at hc
        simp at hc
        subst hc
        simpa [closeChunk] using firstOk_trim (h.bufFirst hch).2
      | cons a l =>
        rw [hch] at hc
        simp at hc
        subst hc
        exact h.first _ (by rw [hch]; simp)
    · intro c hc
      simp only [List.mem_append, List.mem_singleton] at hc
      rcases hc with hc | rfl
      · exact h.closed c hc
      · exact sizeOk_trim h.buf
  · exact ⟨h.first, h.closed⟩

/-- C1 (as amended): with a positive overlap, the first chunk has at most
`maxChunkSize` code units unless it is one single sentence longer than that,
and every chunk has at most `maxChunkSize + overlap + 1` code units unless it
is one single sentence longer than `maxChunkSize` behind a seed of at most
`overlap + 1` code units. -/
theorem splitTextIntoChunks_size (text : JStr) (maxChunkSize overlap : Nat)
    (hov : 0 < overlap) :
    (∀ c ∈ (splitTextIntoChunks text maxChunkSize overlap).head?,
      c.text.length ≤ maxChunkSize ∨
        ∃ s ∈ sentencesOf text, maxChunkSize < (trim s).length ∧ c.text = trim s) ∧
    (∀ c ∈ splitTextIntoChunks text maxChunkSize overlap,
      c.text.length ≤ maxChunkSize + overlap + 1 ∨
        ∃ s ∈ sentencesOf text, maxChunkSize < (trim s).length ∧
          ∃ pre : JStr, c.text = pre ++ trim s ∧ pre.length ≤ overlap + 1) :=
  sizeInv_finish maxChunkSize overlap (sentencesOf text) _
    (sizeInv_foldl maxChunkSize overlap hov (sentencesOf text) (sentencesOf text)
      (fun _ h => h) _ (sizeInv_init maxChunkSize overlap (sentencesOf text)))

/-- Witness of C1 (as amended) at the text `aaaaaaaa.bbbbbbbb` with
`maxChunkSize = 10` and `overlap = 5`. -/
theorem splitTextIntoChunks_size_witness :
    0 < 5 ∧
    (∀ c ∈ (splitTextIntoChunks (lit "aaaaaaaa.bbbbbbbb") 10 5).head?,
      c.text.length ≤ 10 ∨
        ∃ s ∈ sentencesOf (lit "aaaaaaaa.bbbbbbbb"), 10 < (trim s).length ∧ c.text = trim s) ∧
    (∀ c ∈ splitTextIntoChunks (lit "aaaaaaaa.bbbbbbbb") 10 5,
      c.text.length ≤ 10 + 5 + 1 ∨
        ∃ s ∈ sentencesOf (lit "aaaaaaaa.bbbbbbbb"), 10 < (trim s).length ∧
          ∃ pre : JStr, c.text = pre ++ trim s ∧ pre.length ≤ 5 + 1) :=
  ⟨by decide, splitTextIntoChunks_size (lit "aaaaaaaa.bbbbbbbb") 10 5 (by decide)⟩

/-- C1 (counterexample): for the text `aaaaaaaa.bbbbbbbb` with
`maxChunkSize = 10` and `overlap = 5` the second chunk has 14 code units,
although no sentence of the text is longer than 10; with the defaults 800 and
100, two sentences of 750 code units give a second chunk of 851. -/
theorem splitTextIntoChunks_size_counterexample :
    (5 < 10) ∧
    splitTextIntoChunks (lit "aaaaaaaa.bbbbbbbb") 10 5 =
      [{ text := lit "aaaaaaaa", startIndex := 0, endIndex := 8 },
       { text := lit "aaaaa bbbbbbbb", startIndex := 5, endIndex := 19 }] ∧
    (lit "aaaaa bbbbbbbb").length = 14 ∧
    sentencesOf (lit "aaaaaaaa.bbbbbbbb") = [lit "aaaaaaaa", lit "bbbbbbbb"] ∧
    (∀ s ∈ sentencesOf (lit "aaaaaaaa.bbbbbbbb"), (trim s).length ≤ 10) ∧
    (splitTextIntoChunks (List.replicate 750 97 ++ lit "." ++ List.replicate 750 98)).map
      (fun c => c.text.length) = [750, 851] ∧
    ¬ ∀ (text : JStr) (maxChunkSize overlap : Nat), overlap < maxChunkSize →
        ∀ c ∈ splitTextIntoChunks text maxChunkSize overlap,
          c.text.length ≤ maxChunkSize ∨
            ∃ s ∈ sentencesOf text, maxChunkSize < (trim s).length ∧ c.text = trim s := by
  refine ⟨by decide, by decide, by decide, by decide, by decide, by decide, ?_⟩
  intro h
  have h1 := h (lit "aaaaaaaa.bbbbbbbb") 10 5 (by decide)
    { text := lit "aaaaa bbbbbbbb", startIndex := 5, endIndex := 19 } (by decide)
  rcases h1 with h1 | ⟨s, hs, hlen, -⟩
  · exact absurd h1 (by decide)
  · have h2 : ∀ s ∈ sentencesOf (lit "aaaaaaaa.bbbbbbbb"), (trim s).length ≤ 10 := by decide
    exact absurd (h2 s hs) (by omega)

/-! ## At least one chunk (C3) -/

theorem flatten_consHead (c : Nat) (l : List JStr) : (consHead c l).flatten = c :: l.flatten := by
  cases l <;> simp [consHead]

theorem flatten_splitRunsAux (sep : Nat → Bool) (prev : Bool) (s : JStr) :
    (splitRunsAux sep prev s).flatten = s.filter (fun c => !sep c) := by
  induction s generalizing prev with
  | nil => simp [splitRunsAux]
  | cons c cs ih =>
    by_cases hc : sep c = true
    · cases prev <;> simp [splitRunsAux, hc, ih]
    · simp [splitRunsAux, hc, ih, flatten_consHead]

theorem flatten_splitRuns (sep : Nat → Bool) (s : JStr) :
    (splitRuns sep s).flatten = s.filter (fun c => !sep c) :=
  flatten_splitRunsAux sep false s

theorem mem_dropWhile_of_not (p : Nat → Bool) (c : Nat) (l : JStr) (hc : c ∈ l)
    (hp : p c = false) : c ∈ l.dropWhile p := by
  induction l with
  | nil => simp at hc
  | cons a l ih =>
    by_cases ha : p a = true
    · rw [List.dropWhile_cons_of_pos ha]
      rcases List.mem_cons.mp hc with h | h
      · subst h; simp [hp] at ha
      · exact ih h
    · rw [List.dropWhile_cons_of_neg ha]
      exact hc

theorem mem_trim (c : Nat) (s : JStr) (hc : c ∈ s) (hp : isJsSpace c = false) :
    c ∈ trim s := by
  unfold trim List.rdropWhile
  rw [List.mem_reverse]
  apply mem_dropWhile_of_not _ _ _ _ hp
  rw [List.mem_reverse]
  exact mem_dropWhile_of_not _ _ _ hc hp

theorem trim_ne_nil_of_mem_sentencesOf (text s : JStr) (hs : s ∈ sentencesOf text) :
    trim s ≠ [] := by
  unfold sentencesOf at hs
  rw [List.mem_filter] at hs
  have := hs.2
  simp only [gt_iff_lt, decide_eq_true_eq] at this
  exact List.length_pos.mp this

theorem sentencesOf_ne_nil (text : JStr)
    (h : ∃ c ∈ text, isJsSpace c = false ∧ isTerminator c = false) : sentencesOf text ≠ [] := by
  obtain ⟨c, hc, hsp, hterm⟩ := h
  have hj : c ∈ (splitRuns isTerminator text).flatten := by
    rw [flatten_splitRuns, List.mem_filter]
    exact ⟨hc, by simp [hterm]⟩
  obtain ⟨piece, hpiece, hcp⟩ := List.mem_flatten.mp hj
  have : piece ∈ sentencesOf text := by
    unfold sentencesOf
    rw [List.mem_filter]
    refine ⟨hpiece, ?_⟩
    simp only [gt_iff_lt, decide_eq_true_eq]
    exact List.length_pos_of_mem (mem_trim c piece hcp hsp)
  exact List.ne_nil_of_mem this

theorem chunkStep_ends (M ov : Nat) (st : ChunkState) (s : JStr) (hs : trim s ≠ []) :
    EndsNonSpace (chunkStep M ov st s).currentChunk := by
  unfold chunkStep
  simp only
  split
  · exact ends_append _ _ (trim_ends s hs)
  · exact ends_append _ _ (trim_ends s hs)

theorem trim_ne_nil_of_ends (b : JStr) (hb : EndsNonSpace b) : trim b ≠ [] := by
  obtain ⟨r, c, rfl, hc⟩ := hb
  exact List.ne_nil_of_mem (mem_trim c (r ++ [c]) (by simp) hc)

theorem chunkLoop_ends (M ov : Nat) (sents : List JStr) (hne : sents ≠ [])
    (hs : ∀ s ∈ sents, trim s ≠ []) : EndsNonSpace (chunkLoop M ov sents).currentChunk := by
  rcases List.eq_nil_or_concat sents with h | ⟨l, s, rfl⟩
  · exact absurd h hne
  · unfold chunkLoop
    rw [List.concat_eq_append, List.foldl_append]
    exact chunkStep_ends M ov _ s (hs s (by simp))

theorem finishChunks_ne_nil (M ov : Nat) (st : ChunkState) (h : EndsNonSpace st.currentChunk) :
    finishChunks M ov st ≠ [] := by
  unfold finishChunks
  rw [if_pos (List.length_pos.mpr (trim_ne_nil_of_ends _ h))]
  simp

/-- C3 (as amended): a text that contains at least one code unit that is
neither white space nor one of the marks `.` `!` `?` gives at least one chunk,
for every `maxChunkSize` and `overlap`. -/
theorem splitTextIntoChunks_ne_nil (text : JStr) (maxChunkSize overlap : Nat)
    (h : ∃ c ∈ text, isJsSpace c = false ∧ isTerminator c = false) :
    splitTextIntoChunks text maxChunkSize overlap ≠ [] :=
  finishChunks_ne_nil maxChunkSize overlap _
    (chunkLoop_ends maxChunkSize overlap (sentencesOf text) (sentencesOf_ne_nil text h)
      (trim_ne_nil_of_mem_sentencesOf text))

/-- Witness of C3 (as amended) at the text `Hello world` with the defaults. -/
theorem splitTextIntoChunks_ne_nil_witness :
    (∃ c ∈ lit "Hello world", isJsSpace c = false ∧ isTerminator c = false) ∧
      splitTextIntoChunks (lit "Hello world") 800 100 ≠ [] :=
  ⟨⟨72, by decide, by decide, by decide⟩,
    splitTextIntoChunks_ne_nil (lit "Hello world") 800 100 ⟨72, by decide, by decide, by decide⟩⟩

/-- C3 (counterexample): the text `..........` consists of ten printable
characters and gives no chunk at all. -/
theorem splitTextIntoChunks_ne_nil_counterexample :
    10 ≤ (lit "..........").length ∧
    (∀ c ∈ lit "..........", 0x20 ≤ c ∧ c ≤ 0x7E) ∧
    splitTextIntoChunks (lit "..........") 800 100 = [] := by
  refine ⟨by decide, by decide, by decide⟩

/-! ## Reconstruction of the text from the chunks (C4) -/

theorem jsJoin_concat (sep : JStr) (l : List JStr) (t : JStr) (hl : l ≠ []) :
    jsJoin sep (l ++ [t]) = jsJoin sep l ++ sep ++ t := by
  induction l with
  | nil => exact absurd rfl hl
  | cons x l ih =>
    cases l with
    | nil => simp [jsJoin]
    | cons y zs =>
      have := ih (by simp)
      show x ++ sep ++ jsJoin sep (y :: zs ++ [t]) = x ++ sep ++ jsJoin sep (y :: zs) ++ sep ++ t
      rw [this]
      simp

theorem trim_buffer (q r : JStr) (hq : (q = [] ∧ StartsNonSpace r) ∨ EndsNonSpace q)
    (hr : EndsNonSpace r) : trim (q ++ r) = q.dropWhile isJsSpace ++ r := by
  rw [trim_of_ends _ (ends_append q r hr)]
  rcases hq with ⟨rfl, hs⟩ | hq
  · exact dropWhile_append_starts [] r hs
  · exact dropWhile_append_ends q r hq

theorem sliceLast_suffix (b : JStr) (n : Nat) : sliceLast b n <:+ b := by
  unfold sliceLast
  split
  · exact List.suffix_refl b
  · exact List.drop_suffix _ b

theorem sliceLast_ends (b : JStr) (n : Nat) (hb : EndsNonSpace b) :
    EndsNonSpace (sliceLast b n) := by
  unfold sliceLast
  split
  · exact hb
  · obtain ⟨x, c, rfl, hc⟩ := hb
    rw [List.drop_append_of_le_length (by simp; omega)]
    exact ⟨_, c, rfl, hc⟩

theorem ne_nil_of_ends (b : JStr) (hb : EndsNonSpace b) : b ≠ [] := by
  obtain ⟨x, c, rfl, -⟩ := hb
  simp

theorem suffix_dropWhile_of_starts (z b : JStr) (hz : z <:+ b) (hs : StartsNonSpace z) :
    z <:+ b.dropWhile isJsSpace := by
  obtain ⟨y, rfl⟩ := hz
  rw [dropWhile_append_starts y z hs]
  exact List.suffix_append _ z

theorem starts_append (r x : JStr) (hr : StartsNonSpace r) : StartsNonSpace (r ++ x) := by
  obtain ⟨c, t, rfl, hc⟩ := hr
  exact ⟨c, t ++ x, rfl, hc⟩

theorem chain_replace_last (parts : List ChunkParts) (a b : ChunkParts) (hab : a.1 = b.1)
    (h : List.Chain' SeededFrom (parts ++ [a])) : List.Chain' SeededFrom (parts ++ [b]) := by
  rw [List.chain'_append] at h ⊢
  refine ⟨h.1, List.chain'_singleton b, ?_⟩
  intro x hx y hy
  simp only [List.head?_cons, Option.mem_def, Option.some.injEq] at hy
  subst hy
  have := h.2.2 x hx a (by simp)
  unfold SeededFrom at this ⊢
  rw [← hab]
  exact this

theorem shape_first (M ov : Nat) (s : JStr) (hs : trim s ≠ []) :
    Shape ov [s] (chunkStep M ov { chunks := [], currentChunk := [], currentSize := 0 } s) := by
  refine ⟨[], [], trim s, by simp, ?_, ?_, Or.inl ⟨rfl, trim_starts s hs⟩, trim_ends s hs,
    ?_, ?_, ?_, ?_⟩
  · simp [chunkStep]
  · simp [chunkStep, lit]
  · simp [jsJoin]
  · simp
  · simp
  · simp

theorem shape_step (M ov : Nat) (done : List JStr) (st : ChunkState) (s : JStr)
    (hs : trim s ≠ []) (h : Shape ov done st) :
    Shape ov (done ++ [s]) (chunkStep M ov st s) := by
  obtain ⟨parts, q, r, hdone, hmap, hbuf, hq, hr, hjoin, hchain, hhead, hlen⟩ := h
  have hbne : st.currentChunk ≠ [] := by
    rw [hbuf]; exact ne_nil_of_ends _ (ends_append q r hr)
  have hsp : EndsNonSpace (lit " " ++ trim s) := ends_append _ _ (trim_ends s hs)
  unfold chunkStep
  simp only
  split
  · -- the buffer is closed and a new one is seeded
    have hq' : EndsNonSpace (sliceLast st.currentChunk ov) :=
      sliceLast_ends _ ov (by rw [hbuf]; exact ends_append q r hr)
    have hdq' : StartsNonSpace ((sliceLast st.currentChunk ov).dropWhile isJsSpace) :=
      dropWhile_starts _ (ne_nil_of_ends _ (dropWhile_ends _ hq'))
    refine ⟨parts ++ [(q.dropWhile isJsSpace, r)], sliceLast st.currentChunk ov,
      lit " " ++ trim s, by simp, ?_, by simp, Or.inr hq', hsp, ?_, ?_, ?_, ?_⟩
    · simp only [List.map_append, hmap, List.map_cons, List.map_nil, closeChunk]
      rw [hbuf, trim_buffer q r hq hr]
    · rw [List.map_append, List.flatten_append, List.map_append]
      simp only [List.map_cons, List.map_nil, List.flatten_cons, List.flatten_nil,
        List.append_nil]
      rw [jsJoin_concat _ _ _ (by simpa using hdone), ← hjoin]
      simp
    · rw [List.chain'_append]
      refine ⟨hchain, List.chain'_singleton _, ?_⟩
      intro x hx y hy
      simp only [List.getLast?_concat, Option.mem_def, Option.some.injEq] at hx
      simp only [List.head?_cons, Option.mem_def, Option.some.injEq] at hy
      subst hx hy
      unfold SeededFrom
      simp only
      have h1 : (sliceLast st.currentChunk ov).dropWhile isJsSpace <:+ q ++ r := by
        rw [← hbuf]
        exact (List.dropWhile_suffix isJsSpace).trans (sliceLast_suffix _ ov)
      have h2 := suffix_dropWhile_of_starts _ _ h1 hdq'
      have h3 := trim_buffer q r hq hr
      rw [trim_of_ends _ (ends_append q r hr)] at h3
      rw [h3] at h2
      exact h2
    · intro p hp
      apply hhead p
      rw [List.head?_append_of_ne_nil _ (by simp)] at hp
      exact hp
    · intro hov p hp
      rw [List.mem_append] at hp
      rcases hp with hp | hp
      · exact hlen hov p hp
      · simp only [List.mem_singleton] at hp
        subst hp
        exact le_trans (List.dropWhile_suffix isJsSpace).length_le
          (length_sliceLast_le _ ov hov)
  · -- the sentence is appended to the buffer
    refine ⟨parts, q, r ++ (lit " " ++ trim s), by simp, hmap, ?_, ?_, ends_append _ _ hsp,
      ?_, ?_, ?_, ?_⟩
    · first
        | rw [if_pos hbne, hbuf]
        | rw [hbuf]
      simp
    · rcases hq with ⟨h1, h2⟩ | h1
      · exact Or.inl ⟨h1, starts_append _ _ h2⟩
      · exact Or.inr h1
    · rw [List.map_append]
      simp only [List.map_cons, List.map_nil]
      rw [jsJoin_concat _ _ _ (by simpa using hdone), ← hjoin]
      simp
    · exact chain_replace_last parts (q.dropWhile isJsSpace, r) _ rfl hchain
    · intro p hp
      cases parts with
      | nil =>
        simp only [List.nil_append, List.head?_cons, Option.mem_def, Option.some.injEq] at hp
        subst hp
        exact hhead (q.dropWhile isJsSpace, r) (by simp)
      | cons a l =>
        simp only [List.cons_append, List.head?_cons, Option.mem_def, Option.some.injEq] at hp
        subst hp
        exact hhead _ (by simp)
    · intro hov p hp
      rw [List.mem_append] at hp
      rcases hp with hp | hp
      · exact hlen hov p (List.mem_append_left _ hp)
      · simp only [List.mem_singleton] at hp
        subst hp
        exact hlen hov (q.dropWhile isJsSpace, r) (by simp)

theorem shape_foldl (M ov : Nat) (rest done : List JStr) (st : ChunkState)
    (hrest : ∀ s ∈ rest, trim s ≠ []) (h : Shape ov done st) :
    Shape ov (done ++ rest) (rest.foldl (chunkStep M ov) st) := by
  induction rest generalizing done st with
  | nil => simpa using h
  | cons s rest ih =>
    rw [List.foldl_cons]
    have := ih (done ++ [s]) _ (fun x hx => hrest x (List.mem_cons_of_mem _ hx))
      (shape_step M ov done st s (hrest s (List.mem_cons_self _ _)) h)
    simpa using this

theorem shape_chunkLoop (M ov : Nat) (sents : List JStr) (hne : sents ≠ [])
    (hs : ∀ s ∈ sents, trim s ≠ []) : Shape ov sents (chunkLoop M ov sents) := by
  cases sents with
  | nil => exact absurd rfl hne
  | cons s rest =>
    unfold chunkLoop
    rw [List.foldl_cons]
    exact shape_foldl M ov rest [s] _ (fun x hx => hs x (List.mem_cons_of_mem _ hx))
      (shape_first M ov s (hs s (List.mem_cons_self _ _)))

theorem filter_not_dropWhile (p : Nat → Bool) (l : JStr) :
    (l.dropWhile p).filter (fun c => !p c) = l.filter (fun c => !p c) := by
  induction l with
  | nil => rfl
  | cons a l ih =>
    by_cases ha : p a = true
    · rw [List.dropWhile_cons_of_pos ha, ih]
      simp [ha]
    · rw [List.dropWhile_cons_of_neg ha]

theorem filter_nonspace_trim (s : JStr) :
    (trim s).filter (fun c => !isJsSpace c) = s.filter (fun c => !isJsSpace c) := by
  unfold trim List.rdropWhile
  rw [List.filter_reverse, filter_not_dropWhile, List.filter_reverse, filter_not_dropWhile,
    List.reverse_reverse]

theorem filter_nonspace_jsJoin (l : List JStr) :
    (jsJoin (lit " ") l).filter (fun c => !isJsSpace c) =
      (l.map (fun s => s.filter (fun c => !isJsSpace c))).flatten := by
  induction l with
  | nil => rfl
  | cons x l ih =>
    cases l with
    | nil => simp [jsJoin]
    | cons y zs =>
      have hsp : (lit " ").filter (fun c => !isJsSpace c) = [] := by decide
      simp only [jsJoin, List.filter_append, hsp, List.append_nil, List.map_cons,
        List.flatten_cons] at ih ⊢
      rw [ih]

theorem flatten_map_filter_sentences (pieces : List JStr) :
    ((pieces.filter (fun s => decide ((trim s).length > 0))).map
        (fun s => (trim s).filter (fun c => !isJsSpace c))).flatten =
      (pieces.flatten).filter (fun c => !isJsSpace c) := by
  induction pieces with
  | nil => rfl
  | cons x l ih =>
    by_cases hx : (trim x).length > 0
    · rw [List.filter_cons_of_pos (by simpa using hx)]
      rw [List.map_cons, List.flatten_cons, ih, List.flatten_cons, List.filter_append,
        filter_nonspace_trim]
    · rw [List.filter_cons_of_neg (by simpa using hx)]
      have h0 : trim x = [] := by
        apply List.eq_nil_of_length_eq_zero
        omega
      have h1 : x.filter (fun c => !isJsSpace c) = [] := by
        rw [← filter_nonspace_trim, h0]
        rfl
      simp only [List.flatten_cons, List.filter_append, ih, h1, List.nil_append]

theorem filter_nonspace_sentences (text : JStr) :
    (jsJoin (lit " ") ((sentencesOf text).map trim)).filter (fun c => !isJsSpace c) =
      text.filter (fun c => !isJsSpace c && !isTerminator c) := by
  rw [filter_nonspace_jsJoin, List.map_map]
  unfold sentencesOf
  have := flatten_map_filter_sentences (splitRuns isTerminator text)
  rw [flatten_splitRuns, List.filter_filter] at this
  exact this

theorem shape_finish (M ov : Nat) (done : List JStr) (st : ChunkState)
    (h : Shape ov done st) :
    ∃ parts : List ChunkParts,
      (finishChunks M ov st).map (fun c => c.text) = parts.map (fun p => p.1 ++ p.2) ∧
      (∀ p ∈ parts.head?, p.1 = []) ∧
      List.Chain' SeededFrom parts ∧
      (0 < ov → ∀ p ∈ parts, p.1.length ≤ ov) ∧
      (parts.map (fun p => p.2)).flatten = jsJoin (lit " ") (done.map trim) := by
  obtain ⟨parts, q, r, -, hmap, hbuf, hq, hr, hjoin, hchain, hhead, hlen⟩ := h
  refine ⟨parts ++ [(q.dropWhile isJsSpace, r)], ?_, hhead, hchain, hlen, ?_⟩
  · unfold finishChunks
    rw [if_pos (List.length_pos.mpr
      (trim_ne_nil_of_ends _ (by rw [hbuf]; exact ends_append q r hr)))]
    simp only [List.map_append, hmap, List.map_cons, List.map_nil, closeChunk]
    rw [hbuf, trim_buffer q r hq hr]
  · rw [← hjoin]
    simp

/-- C4 (as amended): every chunk text splits into a seed and a body, where the
first seed is empty, every later seed is a suffix of the text of the chunk
before it (of at most `overlap` code units when `overlap > 0`), and the bodies
put together in order are exactly the sentences of the text, trimmed and joined
by single spaces; so they give back the text without its marks `.` `!` `?`,
up to white space. -/
theorem splitTextIntoChunks_reconstructs (text : JStr) (maxChunkSize overlap : Nat) :
    ∃ parts : List ChunkParts,
      (splitTextIntoChunks text maxChunkSize overlap).map (fun c => c.text) =
        parts.map (fun p => p.1 ++ p.2) ∧
      (∀ p ∈ parts.head?, p.1 = []) ∧
      List.Chain' SeededFrom parts ∧
      (0 < overlap → ∀ p ∈ parts, p.1.length ≤ overlap) ∧
      (parts.map (fun p => p.2)).flatten = jsJoin (lit " ") ((sentencesOf text).map trim) ∧
      ((parts.map (fun p => p.2)).flatten).filter (fun c => !isJsSpace c) =
        text.filter (fun c => !isJsSpace c && !isTerminator c) := by
  by_cases hne : sentencesOf text = []
  · refine ⟨[], ?_, by simp, List.chain'_nil, by simp, ?_, ?_⟩
    · simp [splitTextIntoChunks, chunkLoop, hne, finishChunks, trim, List.rdropWhile_nil]
    · simp [hne, jsJoin]
    · have := filter_nonspace_sentences text
      rw [hne] at this
      simpa [jsJoin] using this
  · obtain ⟨parts, h1, h2, h3, h4, h5⟩ := shape_finish maxChunkSize overlap _ _
      (shape_chunkLoop maxChunkSize overlap (sentencesOf text) hne
        (trim_ne_nil_of_mem_sentencesOf text))
    exact ⟨parts, h1, h2, h3, h4, h5, by rw [h5]; exact filter_nonspace_sentences text⟩

/-- C4 (counterexample): the text `Hi. Bye.` gives the single chunk `Hi Bye`;
nothing was seeded, and the two marks `.` of the text are lost, so the chunk
does not give back the text up to white space. -/
theorem splitTextIntoChunks_reconstructs_counterexample :
    (splitTextIntoChunks (lit "Hi. Bye.") 800 100).map (fun c => c.text) = [lit "Hi Bye"] ∧
    (lit "Hi Bye").filter (fun c => !isJsSpace c) = lit "HiBye" ∧
    (lit "Hi. Bye.").filter (fun c => !isJsSpace c) = lit "Hi.Bye." ∧
    lit "HiBye" ≠ lit "Hi.Bye." ∧
    (lit "Hi. Bye.").count 0x2E = 2 ∧ (lit "Hi Bye").count 0x2E = 0 := by
  refine ⟨by decide, by decide, by decide, by decide, by decide, by decide⟩

/-! ## The fallback embedding (C5, C6) -/

theorem mathAbs_nonneg (x : Int) : 0 ≤ mathAbs x := by
  unfold mathAbs
  exact Int.ofNat_nonneg _

theorem bucketOf_range (word : JStr) : 0 ≤ bucketOf word ∧ bucketOf word < 768 := by
  unfold bucketOf simpleHash
  exact ⟨Int.tmod_nonneg _ (mathAbs_nonneg _), Int.tmod_lt_of_pos _ (by decide)⟩

theorem length_bump (e : List Nat) (i : Int) : (bump e i).length = e.length := by
  unfold bump
  split
  · exact List.length_modify _ _ _
  · rfl

theorem sum_modify_succ (l : List Nat) (n : Nat) (h : n < l.length) :
    (l.modify (fun v => v + 1) n).sum = l.sum + 1 := by
  induction l generalizing n with
  | nil => simp at h
  | cons a l ih =>
    cases n with
    | zero => simp [List.modify_zero_cons]; omega
    | succ n =>
      have := ih n (by simpa using h)
      simp [List.modify_succ_cons, this]
      omega

theorem sum_bump (e : List Nat) (i : Int) (h0 : 0 ≤ i) (h1 : i < (e.length : Int)) :
    (bump e i).sum = e.sum + 1 := by
  unfold bump
  rw [if_pos h0]
  exact sum_modify_succ e _ (by omega)

theorem foldl_bump (ws : List JStr) (e : List Nat) (he : e.length = 768) :
    (ws.foldl (fun embedding word => bump embedding (bucketOf word)) e).length = 768 ∧
      (ws.foldl (fun embedding word => bump embedding (bucketOf word)) e).sum =
        e.sum + ws.length := by
  induction ws generalizing e with
  | nil => exact ⟨he, by simp⟩
  | cons w ws ih =>
    rw [List.foldl_cons]
    have hl : (bump e (bucketOf w)).length = 768 := by rw [length_bump, he]
    obtain ⟨h1, h2⟩ := ih _ hl
    refine ⟨h1, ?_⟩
    rw [h2, sum_bump e _ (bucketOf_range w).1 (by rw [he]; exact (bucketOf_range w).2)]
    simp only [List.length_cons]
    omega

theorem length_bucketCounts (lower : JStr → JStr) (text : JStr) :
    (bucketCounts lower text).length = 768 :=
  (foldl_bump _ _ (by simp)).1

theorem sum_bucketCounts (lower : JStr → JStr) (text : JStr) :
    (bucketCounts lower text).sum = (wordsOf lower text).length := by
  unfold bucketCounts
  rw [(foldl_bump _ _ (by simp)).2]
  simp

theorem splitRunsAux_ne_nil (sep : Nat → Bool) (prev : Bool) (s : JStr) :
    splitRunsAux sep prev s ≠ [] := by
  induction s generalizing prev with
  | nil => simp [splitRunsAux]
  | cons c cs ih =>
    unfold splitRunsAux
    split
    · split
      · exact ih true
      · simp
    · cases h : splitRunsAux sep false cs <;> simp [consHead]

theorem wordsOf_length_pos (lower : JStr → JStr) (text : JStr) :
    0 < (wordsOf lower text).length := by
  unfold wordsOf splitRuns
  have := List.length_pos.mpr (splitRunsAux_ne_nil isJsSpace false (lower text))
  rw [List.length_take]
  omega

theorem sum_le_sum_sq (l : List Nat) : l.sum ≤ (l.map (fun v => v * v)).sum := by
  induction l with
  | nil => simp
  | cons a l ih =>
    simp only [List.sum_cons, List.map_cons]
    have : a ≤ a * a := Nat.le_mul_self a
    omega

theorem foldl_sq_eq_sum (l : List ℝ) (a : ℝ) :
    l.foldl (fun sum val => sum + val * val) a = a + (l.map (fun v => v * v)).sum := by
  induction l generalizing a with
  | nil => simp
  | cons x l ih =>
    rw [List.foldl_cons, ih]
    simp only [List.map_cons, List.sum_cons]
    ring

theorem one_le_sum_sq (lower : JStr → JStr) (text : JStr) :
    (1 : ℝ) ≤ (((bucketCounts lower text).map (fun v : Nat => (v : ℝ))).map (fun v => v * v)).sum := by
  have h1 := sum_le_sum_sq (bucketCounts lower text)
  rw [sum_bucketCounts] at h1
  have h2 := wordsOf_length_pos lower text
  have h3 : 1 ≤ ((bucketCounts lower text).map (fun v => v * v)).sum := by omega
  have h4 : (((bucketCounts lower text).map (fun v : Nat => (v : ℝ))).map (fun v => v * v)).sum =
      ((((bucketCounts lower text).map (fun v => v * v)).sum : Nat) : ℝ) := by
    rw [Nat.cast_list_sum, List.map_map, List.map_map]
    congr 1
    apply List.map_congr_left
    intro a _
    simp
  rw [h4]
  exact_mod_cast h3

theorem sq_rounded_bounds (x m u δ : ℝ) (hm : 0 < m) (hu1 : u < 1) (hδ : |δ| ≤ u) :
    (1 - u) ^ 2 / m ^ 2 * (x * x) ≤ (x / m * (1 + δ)) * (x / m * (1 + δ)) ∧
      (x / m * (1 + δ)) * (x / m * (1 + δ)) ≤ (1 + u) ^ 2 / m ^ 2 * (x * x) := by
  obtain ⟨h1, h2⟩ := abs_le.mp hδ
  have hx : 0 ≤ x * x / m ^ 2 := div_nonneg (mul_self_nonneg x) (by positivity)
  have e : (x / m * (1 + δ)) * (x / m * (1 + δ)) = x * x / m ^ 2 * (1 + δ) ^ 2 := by
    field_simp
    ring
  have lo : (1 - u) ^ 2 ≤ (1 + δ) ^ 2 := pow_le_pow_left₀ (by linarith) (by linarith) 2
  have hi : (1 + δ) ^ 2 ≤ (1 + u) ^ 2 := pow_le_pow_left₀ (by linarith) (by linarith) 2
  rw [e]
  constructor
  · calc (1 - u) ^ 2 / m ^ 2 * (x * x) = x * x / m ^ 2 * (1 - u) ^ 2 := by ring
      _ ≤ x * x / m ^ 2 * (1 + δ) ^ 2 := mul_le_mul_of_nonneg_left lo hx
  · calc x * x / m ^ 2 * (1 + δ) ^ 2 ≤ x * x / m ^ 2 * (1 + u) ^ 2 :=
          mul_le_mul_of_nonneg_left hi hx
      _ = (1 + u) ^ 2 / m ^ 2 * (x * x) := by ring

theorem sum_sq_rounded (l : List ℝ) (divide : ℝ → ℝ → ℝ) (m u : ℝ) (hm : 0 < m) (hu1 : u < 1)
    (hdiv : ∀ a b, 0 < b → ∃ δ, |δ| ≤ u ∧ divide a b = a / b * (1 + δ)) :
    (1 - u) ^ 2 / m ^ 2 * (l.map (fun v => v * v)).sum ≤
        ((l.map (fun val => divide val m)).map (fun x => x * x)).sum ∧
      ((l.map (fun val => divide val m)).map (fun x => x * x)).sum ≤
        (1 + u) ^ 2 / m ^ 2 * (l.map (fun v => v * v)).sum := by
  induction l with
  | nil => simp
  | cons x l ih =>
    obtain ⟨δ, hδ, hd⟩ := hdiv x m hm
    obtain ⟨b1, b2⟩ := sq_rounded_bounds x m u δ hm hu1 hδ
    simp only [List.map_cons, List.sum_cons, hd]
    obtain ⟨i1, i2⟩ := ih
    constructor
    · linarith
    · linarith

/-- The sum of the squares of the fallback embedding when the square root and
the division have a relative error of at most `u`. -/
theorem sum_sq_createSimpleEmbedding (sqrt : ℝ → ℝ) (divide : ℝ → ℝ → ℝ)
    (lower : JStr → JStr) (u : ℝ) (text : JStr) (hu0 : 0 ≤ u) (hu1 : u < 1)
    (hsqrt : ∀ x, 0 ≤ x → ∃ ε, |ε| ≤ u ∧ sqrt x = Real.sqrt x * (1 + ε))
    (hdiv : ∀ a b, 0 < b → ∃ δ, |δ| ≤ u ∧ divide a b = a / b * (1 + δ)) :
    ((1 - u) / (1 + u)) ^ 2 ≤
        ((createSimpleEmbedding sqrt divide lower text).map (fun x => x * x)).sum ∧
      ((createSimpleEmbedding sqrt divide lower text).map (fun x => x * x)).sum ≤
        ((1 + u) / (1 - u)) ^ 2 := by
  unfold createSimpleEmbedding
  simp only
  rw [foldl_sq_eq_sum, zero_add]
  have hS := one_le_sum_sq lower text
  set S := (((bucketCounts lower text).map (fun v : Nat => (v : ℝ))).map
    (fun v => v * v)).sum with hSdef
  obtain ⟨ε, hε, hm⟩ := hsqrt S (by linarith)
  obtain ⟨e1, e2⟩ := abs_le.mp hε
  have hrt : 0 < Real.sqrt S := Real.sqrt_pos.mpr (by linarith)
  have hpos : 0 < sqrt S := by
    rw [hm]
    exact mul_pos hrt (by linarith)
  simp only [gt_iff_lt, hpos, if_true]
  obtain ⟨b1, b2⟩ := sum_sq_rounded ((bucketCounts lower text).map (fun v : Nat => (v : ℝ)))
    divide (sqrt S) u hpos hu1 hdiv
  rw [← hSdef] at b1 b2
  have hm2 : sqrt S ^ 2 = S * (1 + ε) ^ 2 := by
    rw [hm, mul_pow, Real.sq_sqrt (by linarith)]
  have hSpos : 0 < S := by linarith
  have hε2 : 0 < (1 + ε) ^ 2 := by
    have : 0 < 1 + ε := by linarith
    positivity
  have lo : (1 - u) ^ 2 ≤ (1 + ε) ^ 2 := pow_le_pow_left₀ (by linarith) (by linarith) 2
  have hi : (1 + ε) ^ 2 ≤ (1 + u) ^ 2 := pow_le_pow_left₀ (by linarith) (by linarith) 2
  have hu2 : 0 < (1 - u) ^ 2 := by
    have : 0 < 1 - u := by linarith
    positivity
  have hup : 0 < (1 + u) ^ 2 := by
    have : 0 < 1 + u := by linarith
    positivity
  have k1 : (1 - u) ^ 2 / sqrt S ^ 2 * S = (1 - u) ^ 2 / (1 + ε) ^ 2 := by
    rw [hm2]
    field_simp
    ring
  have k2 : (1 + u) ^ 2 / sqrt S ^ 2 * S = (1 + u) ^ 2 / (1 + ε) ^ 2 := by
    rw [hm2]
    field_simp
    ring
  rw [k1] at b1
  rw [k2] at b2
  constructor
  · refine le_trans ?_ b1
    rw [div_pow]
    exact div_le_div_of_nonneg_left (le_of_lt hu2) hε2 hi
  · refine le_trans b2 ?_
    rw [div_pow]
    exact div_le_div_of_nonneg_left (le_of_lt hup) hu2 lo

/-- C5 (as amended): the fallback embedding is deterministic; when `Math.sqrt`
and the division have a relative error of at most `u < 1` (`2^-53` for
doubles), the L2 norm of the returned vector lies between `(1 - u) / (1 + u)`
and `(1 + u) / (1 - u)` for every input, the empty string included, so it is
never 0, and it is exactly 1 when the two operations are exact. -/
theorem createSimpleEmbedding_norm_rounded (sqrt : ℝ → ℝ) (divide : ℝ → ℝ → ℝ)
    (toLowerCase : JStr → JStr) (u : ℝ) (text₁ text₂ : JStr) (hu0 : 0 ≤ u) (hu1 : u < 1)
    (hsqrt : ∀ x, 0 ≤ x → ∃ ε, |ε| ≤ u ∧ sqrt x = Real.sqrt x * (1 + ε))
    (hdiv : ∀ a b, 0 < b → ∃ δ, |δ| ≤ u ∧ divide a b = a / b * (1 + δ))
    (h : text₁ = text₂) :
    createSimpleEmbedding sqrt divide toLowerCase text₁ =
      createSimpleEmbedding sqrt divide toLowerCase text₂ ∧
    (1 - u) / (1 + u) ≤ l2norm Real.sqrt (createSimpleEmbedding sqrt divide toLowerCase text₁) ∧
    l2norm Real.sqrt (createSimpleEmbedding sqrt divide toLowerCase text₁) ≤
      (1 + u) / (1 - u) ∧
    0 < l2norm Real.sqrt (createSimpleEmbedding sqrt divide toLowerCase text₁) ∧
    (u = 0 → l2norm Real.sqrt (createSimpleEmbedding sqrt divide toLowerCase text₁) = 1) := by
  obtain ⟨b1, b2⟩ := sum_sq_createSimpleEmbedding sqrt divide toLowerCase u text₁ hu0 hu1
    hsqrt hdiv
  have hlo : 0 < (1 - u) / (1 + u) := div_pos (by linarith) (by linarith)
  have hhi : 0 < (1 + u) / (1 - u) := div_pos (by linarith) (by linarith)
  have n1 : (1 - u) / (1 + u) ≤
      l2norm Real.sqrt (createSimpleEmbedding sqrt divide toLowerCase text₁) := by
    unfold l2norm
    exact Real.le_sqrt_of_sq_le b1
  have n2 : l2norm Real.sqrt (createSimpleEmbedding sqrt divide toLowerCase text₁) ≤
      (1 + u) / (1 - u) := by
    unfold l2norm
    exact Real.sqrt_le_iff.mpr ⟨le_of_lt hhi, b2⟩
  refine ⟨by rw [h], n1, n2, lt_of_lt_of_le hlo n1, ?_⟩
  intro h0
  rw [h0] at n1 n2
  norm_num at n1 n2
  exact le_antisymm n2 n1

/-- Witness of C5 (as amended): the text `Hello world` with an exact square root
and an exact division, for the unit roundoff `2^-53` of doubles. -/
theorem createSimpleEmbedding_norm_rounded_witness :
    (0 : ℝ) ≤ 1 / 2 ^ 53 ∧ (1 : ℝ) / 2 ^ 53 < 1 ∧
    (∀ x : ℝ, 0 ≤ x → ∃ ε : ℝ, |ε| ≤ 1 / 2 ^ 53 ∧ Real.sqrt x = Real.sqrt x * (1 + ε)) ∧
    (∀ a b : ℝ, 0 < b → ∃ δ : ℝ, |δ| ≤ 1 / 2 ^ 53 ∧ a / b = a / b * (1 + δ)) ∧
    (1 - 1 / 2 ^ 53) / (1 + 1 / 2 ^ 53) ≤
      l2norm Real.sqrt (createSimpleEmbedding Real.sqrt (fun a b => a / b) asciiLowerCase
        (lit "Hello world")) ∧
    l2norm Real.sqrt (createSimpleEmbedding Real.sqrt (fun a b => a / b) asciiLowerCase
        (lit "Hello world")) ≤ (1 + 1 / 2 ^ 53) / (1 - 1 / 2 ^ 53) :=
  ⟨by norm_num, by norm_num, fun x _ => ⟨0, by norm_num, by ring⟩,
    fun a b _ => ⟨0, by norm_num, by ring⟩,
    (createSimpleEmbedding_norm_rounded Real.sqrt (fun a b => a / b) asciiLowerCase (1 / 2 ^ 53)
      (lit "Hello world") (lit "Hello world") (by norm_num) (by norm_num)
      (fun x _ => ⟨0, by norm_num, by ring⟩) (fun a b _ => ⟨0, by norm_num, by ring⟩) rfl).2.1,
    (createSimpleEmbedding_norm_rounded Real.sqrt (fun a b => a / b) asciiLowerCase (1 / 2 ^ 53)
      (lit "Hello world") (lit "Hello world") (by norm_num) (by norm_num)
      (fun x _ => ⟨0, by norm_num, by ring⟩) (fun a b _ => ⟨0, by norm_num, by ring⟩) rfl).2.2.1⟩
theorem sum_sq_of_zero_one (l : List Nat) (g : ℚ → ℚ) (hg : g 0 = 0)
    (hl : ∀ x ∈ l, x = 0 ∨ x = 1) :
    (((l.map (fun v : Nat => (v : ℚ))).map g).map (fun x => x * x)).sum =
      (l.count 1 : ℚ) * (g 1 * g 1) := by
  induction l with
  | nil => simp
  | cons a l ih =>
    have ih' := ih (fun x hx => hl x (List.mem_cons_of_mem _ hx))
    rcases hl a (List.mem_cons_self _ _) with h | h
    · subst h
      simp only [List.map_cons, List.sum_cons, Nat.cast_zero, hg, mul_zero, zero_add, ih']
      simp
    · subst h
      simp only [List.map_cons, List.sum_cons, Nat.cast_one, ih', List.count_cons_self,
        Nat.cast_add]
      ring

theorem foldl_sq_of_zero_one (l : List Nat) (a : ℚ) (hl : ∀ x ∈ l, x = 0 ∨ x = 1) :
    (l.map (fun v : Nat => (v : ℚ))).foldl (fun sum val => sum + val * val) a =
      a + (l.count 1 : ℚ) := by
  induction l generalizing a with
  | nil => simp
  | cons x l ih =>
    have ih' := fun b => ih b (fun y hy => hl y (List.mem_cons_of_mem _ hy))
    rcases hl x (List.mem_cons_self _ _) with h | h
    · subst h
      simp only [List.map_cons, List.foldl_cons, Nat.cast_zero, mul_zero, add_zero, ih']
      simp
    · subst h
      simp only [List.map_cons, List.foldl_cons, Nat.cast_one, mul_one, ih',
        List.count_cons_self, Nat.cast_add]
      ring

theorem two_mul_sq_ne_one (v : ℚ) : 2 * (v * v) ≠ 1 := by
  intro h
  have hv : v ≠ 0 := by
    rintro rfl
    norm_num at h
  have h2 : ((|v⁻¹| : ℚ) : ℝ) * ((|v⁻¹| : ℚ) : ℝ) = 2 := by
    rw [← Rat.cast_mul, abs_mul_abs_self]
    have : v⁻¹ * v⁻¹ = 2 := by
      field_simp
      linarith
    rw [this]
    norm_num
  have h3 : Real.sqrt 2 = ((|v⁻¹| : ℚ) : ℝ) := by
    rw [← h2]
    exact Real.sqrt_mul_self (by exact_mod_cast abs_nonneg _)
  exact irrational_sqrt_two ⟨_, h3.symm⟩

theorem count_one_le_sum (l : List Nat) : l.count 1 ≤ l.sum := by
  induction l with
  | nil => simp
  | cons x l ih =>
    by_cases hx : x = 1
    · subst hx
      simp only [List.count_cons_self, List.sum_cons]
      omega
    · rw [List.count_cons_of_ne (Ne.symm hx), List.sum_cons]
      omega

theorem zero_one_of_sum_eq_count (l : List Nat) (h : l.sum = l.count 1) :
    ∀ x ∈ l, x = 0 ∨ x = 1 := by
  induction l with
  | nil => simp
  | cons x l ih =>
    have hle := count_one_le_sum l
    by_cases hx : x = 1
    · subst hx
      simp only [List.count_cons_self, List.sum_cons] at h
      intro y hy
      rcases List.mem_cons.mp hy with rfl | hy
      · exact Or.inr rfl
      · exact ih (by omega) y hy
    · rw [List.count_cons_of_ne (Ne.symm hx), List.sum_cons] at h
      intro y hy
      rcases List.mem_cons.mp hy with rfl | hy
      · exact Or.inl (by omega)
      · exact ih (by omega) y hy

theorem sum_sq_of_counts (sqrt : ℚ → ℚ) (divide : ℚ → ℚ → ℚ) (lower : JStr → JStr)
    (text : JStr) (h0 : ∀ m, divide 0 m = 0)
    (hl : ∀ x ∈ bucketCounts lower text, x = 0 ∨ x = 1) :
    ∃ v : ℚ, ((createSimpleEmbedding sqrt divide lower text).map (fun x => x * x)).sum =
        ((bucketCounts lower text).count 1 : ℚ) * (v * v) ∧
      (0 < sqrt ((bucketCounts lower text).count 1 : ℚ) →
        v = divide 1 (sqrt ((bucketCounts lower text).count 1 : ℚ))) := by
  have hS := foldl_sq_of_zero_one (bucketCounts lower text) 0 hl
  rw [zero_add] at hS
  generalize hn : ((bucketCounts lower text).count 1 : ℚ) = n at hS ⊢
  refine ⟨if 0 < sqrt n then divide 1 (sqrt n) else 0, ?_, fun h => by rw [if_pos h]⟩
  unfold createSimpleEmbedding
  simp only [hS]
  rw [sum_sq_of_zero_one _ (fun val => if sqrt n > 0 then divide val (sqrt n) else 0)
    (by simp [h0]) hl, hn]

theorem sum_sq_hello_world (sqrt : ℚ → ℚ) (divide : ℚ → ℚ → ℚ) (h0 : ∀ m, divide 0 m = 0) :
    ∃ v : ℚ, ((createSimpleEmbedding sqrt divide asciiLowerCase (lit "Hello world")).map
      (fun x => x * x)).sum = 2 * (v * v) ∧
      (0 < sqrt 2 → v = divide 1 (sqrt 2)) := by
  have hc : (bucketCounts asciiLowerCase (lit "Hello world")).count 1 = 2 := by decide
  have hw : (wordsOf asciiLowerCase (lit "Hello world")).length = 2 := by decide
  have hl : ∀ x ∈ bucketCounts asciiLowerCase (lit "Hello world"), x = 0 ∨ x = 1 :=
    zero_one_of_sum_eq_count _ (by rw [sum_bucketCounts, hw, hc])
  obtain ⟨v, h1, h2⟩ := sum_sq_of_counts sqrt divide asciiLowerCase (lit "Hello world") h0 hl
  rw [hc] at h1 h2
  exact ⟨v, h1, h2⟩

/-- C5 (counterexample): for the text `Hello world` the two tokens fall in the
buckets 466 and 402, so the returned vector has two equal non-zero components
and zeros elsewhere. Its components are doubles, which are rational numbers, and no
rational `v` has `2 * v * v = 1`: whatever `Math.sqrt` and the division return,
the squares of the components do not add up to 1. With the doubles nearest to
the square root of 2 and to its inverse they add up to a number below 1. -/
theorem createSimpleEmbedding_norm_counterexample :
    wordsOf asciiLowerCase (lit "Hello world") = [lit "hello", lit "world"] ∧
    bucketOf (lit "hello") = 466 ∧ bucketOf (lit "world") = 402 ∧
    (bucketCounts asciiLowerCase (lit "Hello world")).count 1 = 2 ∧
    (¬ ∃ (sqrt : ℚ → ℚ) (divide : ℚ → ℚ → ℚ), (∀ m, divide 0 m = 0) ∧
      ((createSimpleEmbedding sqrt divide asciiLowerCase (lit "Hello world")).map
        (fun x => x * x)).sum = 1) ∧
    (doubleSqrtTwo - 1 / 2 ^ 53) ^ 2 < 2 ∧ 2 < (doubleSqrtTwo + 1 / 2 ^ 53) ^ 2 ∧
    |doubleInvSqrtTwo - 1 / doubleSqrtTwo| ≤ 1 / 2 ^ 54 ∧
    ((createSimpleEmbedding (fun _ => doubleSqrtTwo) (fun a _ => a * doubleInvSqrtTwo)
      asciiLowerCase (lit "Hello world")).map (fun x => x * x)).sum =
        1 - 449514781148503 / 2535301200456458802993406410752 := by
  refine ⟨by decide, by decide, by decide, by decide, ?_, ?_, ?_, ?_, ?_⟩
  · rintro ⟨sqrt, divide, h0, h1⟩
    obtain ⟨v, hv, -⟩ := sum_sq_hello_world sqrt divide h0
    rw [hv] at h1
    exact two_mul_sq_ne_one v h1
  · norm_num [doubleSqrtTwo]
  · norm_num [doubleSqrtTwo]
  · rw [abs_le]
    constructor <;> norm_num [doubleSqrtTwo, doubleInvSqrtTwo]
  · obtain ⟨v, hv, hv2⟩ := sum_sq_hello_world (fun _ => doubleSqrtTwo)
      (fun a _ => a * doubleInvSqrtTwo) (fun _ => by simp)
    rw [hv, hv2 (by norm_num [doubleSqrtTwo])]
    norm_num [doubleInvSqrtTwo]

/-- C6: the fallback embedding has exactly 768 components; the bucket of every
token lies in `[0, 768)`, also for the wrapped hash `-2^31`, whose absolute
value `2^31` falls in bucket 512; and every increment lands in the array, whose
entries add up to the number of tokens. -/
theorem createSimpleEmbedding_length_bucket {F : Type} [LinearOrderedField F]
    (sqrt : F → F) (divide : F → F → F) (toLowerCase : JStr → JStr) (text : JStr) :
    (createSimpleEmbedding sqrt divide toLowerCase text).length = 768 ∧
    (∀ word : JStr, 0 ≤ bucketOf word ∧ bucketOf word < 768) ∧
    (∀ hash : Int, 0 ≤ Int.tmod (mathAbs hash) 768 ∧ Int.tmod (mathAbs hash) 768 < 768) ∧
    Int.tmod (mathAbs (-2 ^ 31)) 768 = 512 ∧
    (bucketCounts toLowerCase text).length = 768 ∧
    (bucketCounts toLowerCase text).sum = (wordsOf toLowerCase text).length := by
  refine ⟨?_, bucketOf_range, ?_, by decide, length_bucketCounts _ _, sum_bucketCounts _ _⟩
  · simp [createSimpleEmbedding, length_bucketCounts]
  · intro hash
    exact ⟨Int.tmod_nonneg _ (mathAbs_nonneg _), Int.tmod_lt_of_pos _ (by decide)⟩

/-! ## The batch upload (C2) -/

theorem decimalValue_decimalAux (fuel n : Nat) (h : n < fuel) :
    decimalValue (decimalAux fuel n) = n := by
  induction fuel generalizing n with
  | zero => omega
  | succ fuel ih =>
    unfold decimalAux
    split
    · simp [decimalValue]
    · have := ih (n / 10) (by omega)
      unfold decimalValue at this ⊢
      rw [List.foldl_append, this]
      simp only [List.foldl_cons, List.foldl_nil, Nat.add_sub_cancel]
      omega

theorem decimal_injective (a b : Nat) (h : decimal a = decimal b) : a = b := by
  have ha := decimalValue_decimalAux (a + 1) a (by omega)
  have hb := decimalValue_decimalAux (b + 1) b (by omega)
  unfold decimal at h
  rw [h] at ha
  omega

theorem length_createSimpleEmbedding {F : Type} [LinearOrderedField F] (sqrt : F → F)
    (divide : F → F → F) (lower : JStr → JStr) (text : JStr) :
    (createSimpleEmbedding sqrt divide lower text).length = 768 := by
  simp [createSimpleEmbedding, length_bucketCounts]

theorem getEmbedding_ne_nil {F : Type} [LinearOrderedField F] (env : Services F) (text : JStr)
    (h : env.embedContent text ≠ .ok []) : getEmbedding env text ≠ [] := by
  unfold getEmbedding
  split
  next values hv =>
    intro h0
    rw [h0] at hv
    exact h hv
  next =>
    intro h0
    have := length_createSimpleEmbedding env.sqrt env.divide env.toLowerCase text
    rw [h0] at this
    simp at this

theorem pushVectors_eq {F : Type} [LinearOrderedField F] (env : Services F)
    (documentId fileName : JStr) (startIndex index : Nat) (batch : List Chunk)
    (h : ∀ c ∈ batch, getEmbedding env c.text ≠ []) :
    pushVectors documentId fileName startIndex index
        ((batch.map (fun chunk => getEmbedding env chunk.text)).zip batch) =
      recordsFrom env documentId fileName (startIndex + index) batch := by
  induction batch generalizing index with
  | nil => rfl
  | cons c cs ih =>
    have hc := h c (List.mem_cons_self _ _)
    have := ih (index + 1) (fun x hx => h x (List.mem_cons_of_mem _ hx))
    simp only [List.map_cons, List.zip_cons_cons, pushVectors, recordsFrom]
    rw [if_pos (List.length_pos.mpr hc)]
    unfold List.zip at this
    rw [this]
    simp [mkRecord, Nat.add_assoc]

theorem processBatch_eq {F : Type} [LinearOrderedField F] (env : Services F)
    (documentId fileName : JStr) (startIndex : Nat) (batch : List Chunk)
    (h : ∀ c ∈ batch, getEmbedding env c.text ≠ []) :
    processBatch env batch documentId fileName startIndex =
      recordsFrom env documentId fileName startIndex batch := by
  unfold processBatch
  exact pushVectors_eq env documentId fileName startIndex 0 batch h

theorem recordsFrom_take_drop {F : Type} [LinearOrderedField F] (env : Services F)
    (documentId fileName : JStr) (m k : Nat) (l : List Chunk) :
    recordsFrom env documentId fileName k (l.take m) ++
        recordsFrom env documentId fileName (k + m) (l.drop m) =
      recordsFrom env documentId fileName k l := by
  induction m generalizing k l with
  | zero => simp [recordsFrom]
  | succ m ih =>
    cases l with
    | nil => simp [recordsFrom]
    | cons c cs =>
      simp only [List.take_succ_cons, List.drop_succ_cons, recordsFrom, List.cons_append]
      rw [show k + (m + 1) = k + 1 + m by omega, ih]

theorem getElem?_recordsFrom {F : Type} [LinearOrderedField F] (env : Services F)
    (documentId fileName : JStr) (k j : Nat) (l : List Chunk) :
    (recordsFrom env documentId fileName k l)[j]? =
      (l[j]?).map (fun c => mkRecord documentId fileName (k + j) 0 (getEmbedding env c.text) c) := by
  induction l generalizing k j with
  | nil => simp [recordsFrom]
  | cons c cs ih =>
    cases j with
    | zero => simp [recordsFrom]
    | succ j =>
      simp only [recordsFrom, List.getElem?_cons_succ]
      rw [ih, show k + 1 + j = k + (j + 1) by omega]

theorem length_recordsFrom {F : Type} [LinearOrderedField F] (env : Services F)
    (documentId fileName : JStr) (k : Nat) (l : List Chunk) :
    (recordsFrom env documentId fileName k l).length = l.length := by
  induction l generalizing k with
  | nil => rfl
  | cons c cs ih => simp [recordsFrom, ih]

theorem slice_eq (l : List Chunk) (s : Nat) :
    (l.take (min (s + 50) l.length)).drop s = (l.drop s).take 50 := by
  rw [List.drop_take]
  by_cases h : s + 50 ≤ l.length
  · rw [Nat.min_eq_left h, Nat.add_sub_cancel_left]
  · rw [Nat.min_eq_right (by omega)]
    rw [List.take_of_length_le (by simp), List.take_of_length_le (by simp; omega)]

theorem waveBatches_chunks (chunks : List Chunk) (i fuel j : Nat) (hj : j + fuel ≤ 3) :
    ((waveBatches chunks i fuel j).map (fun b => b.2)).flatten =
      (chunks.drop (i + j * 50)).take (fuel * 50) := by
  induction fuel generalizing j with
  | zero => simp [waveBatches]
  | succ fuel ih =>
    unfold waveBatches
    split
    next hc =>
      simp only [List.map_cons, List.flatten_cons]
      rw [ih (j + 1) (by omega), slice_eq]
      have h1 : (chunks.drop (i + j * 50)).take 50 =
          ((chunks.drop (i + j * 50)).take ((fuel + 1) * 50)).take 50 := by
        rw [List.take_take, Nat.min_eq_left (by omega)]
      have h2 : (chunks.drop (i + (j + 1) * 50)).take (fuel * 50) =
          ((chunks.drop (i + j * 50)).take ((fuel + 1) * 50)).drop 50 := by
        rw [List.drop_take, List.drop_drop]
        congr 2 <;> omega
      rw [h1, h2, List.take_append_drop]
    next hc =>
      have : chunks.length ≤ i + j * 50 := by
        by_contra h
        exact hc ⟨by omega, by omega⟩
      rw [List.drop_of_length_le this]
      simp

theorem waveBatches_records {F : Type} [LinearOrderedField F] (env : Services F)
    (documentId fileName : JStr) (chunks : List Chunk)
    (h : ∀ c ∈ chunks, getEmbedding env c.text ≠ []) (i fuel j : Nat) (hj : j + fuel ≤ 3) :
    ((waveBatches chunks i fuel j).map
        (fun b => processBatch env b.2 documentId fileName b.1)).flatten =
      recordsFrom env documentId fileName (i + j * 50)
        ((chunks.drop (i + j * 50)).take (fuel * 50)) := by
  induction fuel generalizing j with
  | zero => simp [waveBatches, recordsFrom]
  | succ fuel ih =>
    unfold waveBatches
    split
    next hc =>
      simp only [List.map_cons, List.flatten_cons]
      rw [ih (j + 1) (by omega), slice_eq, processBatch_eq]
      · have h1 : (chunks.drop (i + j * 50)).take 50 =
            ((chunks.drop (i + j * 50)).take ((fuel + 1) * 50)).take 50 := by
          rw [List.take_take, Nat.min_eq_left (by omega)]
        have h2 : (chunks.drop (i + (j + 1) * 50)).take (fuel * 50) =
            ((chunks.drop (i + j * 50)).take ((fuel + 1) * 50)).drop 50 := by
          rw [List.drop_take, List.drop_drop]
          congr 2 <;> omega
        rw [h1, h2, show i + (j + 1) * 50 = i + j * 50 + 50 by omega, recordsFrom_take_drop]
      · intro c hc'
        exact h c (List.mem_of_mem_drop (List.mem_of_mem_take hc'))
    next hc =>
      have : chunks.length ≤ i + j * 50 := by
        by_contra h
        exact hc ⟨by omega, by omega⟩
      rw [List.drop_of_length_le this]
      simp [recordsFrom]

theorem waveBatches_props (chunks : List Chunk) (i fuel j : Nat) :
    (waveBatches chunks i fuel j).length ≤ fuel ∧
      ∀ b ∈ waveBatches chunks i fuel j,
        b.2.length ≤ 50 ∧ b.2 = (chunks.drop b.1).take b.2.length := by
  induction fuel generalizing j with
  | zero => simp [waveBatches]
  | succ fuel ih =>
    unfold waveBatches
    split
    next hc =>
      obtain ⟨h1, h2⟩ := ih (j + 1)
      refine ⟨by simp only [List.length_cons]; omega, ?_⟩
      intro b hb
      rcases List.mem_cons.mp hb with rfl | hb
      · simp only
        rw [slice_eq]
        refine ⟨by simp only [List.length_take]; omega, ?_⟩
        rw [List.length_take]
        generalize chunks.drop (i + j * 50) = l
        by_cases h50 : 50 ≤ l.length
        · rw [Nat.min_eq_left h50]
        · rw [Nat.min_eq_right (by omega), List.take_length,
            List.take_of_length_le (by omega)]
      · exact h2 b hb
    next hc => simp

theorem upsertAll_flatten {F : Type} (env : Services F) (rs : List (List (VectorRecord F)))
    (h : (upsertAll env rs).2 = none) : (upsertAll env rs).1.flatten = rs.flatten := by
  induction rs with
  | nil => rfl
  | cons v rest ih =>
    unfold upsertAll at h ⊢
    split at h
    next hv =>
      rw [if_pos hv]
      split at h
      next u hu =>
        simp only [hu]
        simp only at h
        rw [List.flatten_cons, List.flatten_cons, ih h]
      next e he => simp at h
    next hv =>
      rw [if_neg hv]
      have : v = [] := by
        cases v with
        | nil => rfl
        | cons a l => simp at hv
      rw [ih h, this]
      simp

theorem waveLoop_spec {F : Type} [LinearOrderedField F] (env : Services F)
    (documentId fileName : JStr) (chunks : List Chunk)
    (h : ∀ c ∈ chunks, getEmbedding env c.text ≠ []) (fuel i : Nat)
    (hfuel : chunks.length ≤ i + 150 * fuel)
    (hok : (waveLoop env documentId fileName chunks fuel i).failure = none) :
    (waveLoop env documentId fileName chunks fuel i).upserts.flatten =
        recordsFrom env documentId fileName i (chunks.drop i) ∧
      ((waveLoop env documentId fileName chunks fuel i).batches.flatten.map
        (fun b => b.2)).flatten = chunks.drop i ∧
      ∀ wave ∈ (waveLoop env documentId fileName chunks fuel i).batches,
        wave.length ≤ 3 ∧
          ∀ b ∈ wave, b.2.length ≤ 50 ∧ b.2 = (chunks.drop b.1).take b.2.length := by
  induction fuel generalizing i with
  | zero =>
    simp only [waveLoop]
    rw [List.drop_of_length_le (by omega)]
    simp [recordsFrom]
  | succ fuel ih =>
    unfold waveLoop at hok ⊢
    split at hok
    next hi =>
      rw [if_pos hi]
      simp only at hok ⊢
      split at hok
      next e he => simp at hok
      next he =>
        simp only [he]
        simp only at hok
        obtain ⟨h1, h2, h3⟩ := ih (i + 150) (by omega) hok
        refine ⟨?_, ?_, ?_⟩
        · rw [List.flatten_append, h1, upsertAll_flatten env _ he]
          have := waveBatches_records env documentId fileName chunks h i 3 0 (by omega)
          simp only [Nat.zero_mul, Nat.add_zero] at this
          rw [this]
          have h4 : chunks.drop (i + 150) = (chunks.drop i).drop 150 := by
            rw [List.drop_drop]
          rw [h4]
          exact recordsFrom_take_drop env documentId fileName 150 i _
        · rw [List.flatten_cons, List.map_append, List.flatten_append, h2]
          have := waveBatches_chunks chunks i 3 0 (by omega)
          simp only [Nat.zero_mul, Nat.add_zero] at this
          rw [this]
          have h4 : chunks.drop (i + 150) = (chunks.drop i).drop 150 := by
            rw [List.drop_drop]
          rw [h4]
          exact List.take_append_drop 150 _
        · intro wave hw
          rcases List.mem_cons.mp hw with rfl | hw
          · exact waveBatches_props chunks i 3 0
          · exact h3 wave hw
    next hi =>
      rw [if_neg hi]
      simp only
      rw [List.drop_of_length_le (by omega)]
      simp [recordsFrom]

theorem upsertAll_ok {F : Type} (env : Services F) (rs : List (List (VectorRecord F)))
    (h : ∀ v, env.upsert v = .ok ()) : (upsertAll env rs).2 = none := by
  induction rs with
  | nil => rfl
  | cons v rest ih =>
    unfold upsertAll
    split
    · rw [h v]
      exact ih
    · exact ih

theorem waveLoop_ok {F : Type} [LinearOrderedField F] (env : Services F)
    (documentId fileName : JStr) (chunks : List Chunk) (h : ∀ v, env.upsert v = .ok ())
    (fuel i : Nat) : (waveLoop env documentId fileName chunks fuel i).failure = none := by
  induction fuel generalizing i with
  | zero => rfl
  | succ fuel ih =>
    unfold waveLoop
    split
    · simp only
      rw [upsertAll_ok env _ h]
      exact ih (i + 150)
    · rfl

/-- The upload loop completes whenever every call of `index.upsert` succeeds. -/
theorem storeChunks_completes {F : Type} [LinearOrderedField F] (env : Services F)
    (documentId fileName : JStr) (chunks : List Chunk) (h : ∀ v, env.upsert v = .ok ()) :
    (storeChunks env documentId fileName chunks).failure = none :=
  waveLoop_ok env documentId fileName chunks h _ _

theorem nodup_ids {F : Type} [LinearOrderedField F] (env : Services F)
    (documentId fileName : JStr) (k : Nat) (l : List Chunk) :
    ((recordsFrom env documentId fileName k l).map (fun r => r.id)).Nodup := by
  rw [List.nodup_iff_getElem?_ne_getElem?]
  intro a b hab hb
  rw [List.length_map, length_recordsFrom] at hb
  rw [List.getElem?_map, List.getElem?_map, getElem?_recordsFrom, getElem?_recordsFrom,
    List.getElem?_eq_getElem (by omega), List.getElem?_eq_getElem hb]
  simp only [Option.map_some', ne_eq, Option.some.injEq, mkRecord, Nat.add_zero]
  intro heq
  have := decimal_injective _ _ (List.append_cancel_left heq)
  omega

/-- Once the index exists, `processAndStoreDocument` uploads the chunks of the
text cut with `maxChunkSize = 800` and `overlap = 100`. -/
theorem processAndStoreDocument_eq {F : Type} [LinearOrderedField F] (env : Services F)
    (documentId fileName text : JStr) :
    processAndStoreDocument env (.ok ()) documentId fileName text =
      storeChunks env documentId fileName (splitTextIntoChunks text 800 100) := rfl

/-- C2 (as amended): in a run of the upload loop in which no call of `upsert`
throws, with a provider that never returns an empty vector, every wave has at most 3 batches, every batch is a
slice of at most 50 consecutive chunks, the batches in order make up the chunk
list, and the records handed to `upsert`, in call order, are one record per
chunk: the `k`-th has the id `{documentId}_{k}`, `chunkIndex = k` and the text
of the `k`-th chunk; the ids are pairwise distinct. -/
theorem storeChunks_records {F : Type} [LinearOrderedField F] (env : Services F)
    (documentId fileName : JStr) (chunks : List Chunk)
    (hemb : ∀ c ∈ chunks, env.embedContent c.text ≠ .ok [])
    (hok : (storeChunks env documentId fileName chunks).failure = none) :
    (∀ wave ∈ (storeChunks env documentId fileName chunks).batches,
      wave.length ≤ 3 ∧
        ∀ b ∈ wave, b.2.length ≤ 50 ∧ b.2 = (chunks.drop b.1).take b.2.length) ∧
    ((storeChunks env documentId fileName chunks).batches.flatten.map
      (fun b => b.2)).flatten = chunks ∧
    (storeChunks env documentId fileName chunks).upserts.flatten.length = chunks.length ∧
    (∀ (k : Nat) (c : Chunk), chunks[k]? = some c →
      ∃ r, (storeChunks env documentId fileName chunks).upserts.flatten[k]? = some r ∧
        r.id = documentId ++ lit "_" ++ decimal k ∧
        r.values = getEmbedding env c.text ∧
        r.metadata.documentId = documentId ∧
        r.metadata.chunkIndex = k ∧
        r.metadata.text = c.text) ∧
    ((storeChunks env documentId fileName chunks).upserts.flatten.map (fun r => r.id)).Nodup := by
  have h : ∀ c ∈ chunks, getEmbedding env c.text ≠ [] :=
    fun c hc => getEmbedding_ne_nil env c.text (hemb c hc)
  obtain ⟨h1, h2, h3⟩ := waveLoop_spec env documentId fileName chunks h chunks.length 0
    (by omega) hok
  rw [List.drop_zero] at h1 h2
  unfold storeChunks
  refine ⟨h3, h2, ?_, ?_, ?_⟩
  · rw [h1, length_recordsFrom]
  · intro k c hk
    rw [h1, getElem?_recordsFrom, hk]
    exact ⟨_, rfl, by simp [mkRecord], rfl, rfl, by simp [mkRecord], rfl⟩
  · rw [h1]
    exact nodup_ids env documentId fileName 0 chunks

/-- Witness of C2: 120 chunks uploaded with services that always succeed. -/
theorem storeChunks_records_witness :
    (∀ c ∈ demoChunks, demoServices.embedContent c.text ≠ .ok []) ∧
    (storeChunks demoServices (lit "doc") (lit "a.pdf") demoChunks).failure = none ∧
    (storeChunks demoServices (lit "doc") (lit "a.pdf") demoChunks).batches.map
      (fun wave => wave.map (fun b => (b.1, b.2.length))) = [[(0, 50), (50, 50), (100, 20)]] ∧
    (storeChunks demoServices (lit "doc") (lit "a.pdf") demoChunks).upserts.flatten.length =
      demoChunks.length :=
  ⟨fun _ _ h => by simp [demoServices] at h, by decide, by decide,
    (storeChunks_records demoServices (lit "doc") (lit "a.pdf") demoChunks
      (fun _ _ h => by simp [demoServices] at h) (by decide)).2.2.1⟩

/-- C2 (counterexample): with a provider that returns a non-empty vector for
every chunk and an index whose `upsert` throws, the first wave of 120 chunks
hands its three batches to `processBatch`, the first call of `upsert` throws,
and only the 50 records of the first batch were handed to `upsert`. -/
theorem storeChunks_records_counterexample :
    (∀ c ∈ demoChunks, demoWriteDownServices.embedContent c.text ≠ .ok []) ∧
    demoChunks.length = 120 ∧
    (storeChunks demoWriteDownServices (lit "doc") (lit "a.pdf") demoChunks).batches.map
      (fun wave => wave.map (fun b => (b.1, b.2.length))) = [[(0, 50), (50, 50), (100, 20)]] ∧
    (storeChunks demoWriteDownServices (lit "doc") (lit "a.pdf") demoChunks).upserts.map
      List.length = [50] ∧
    (storeChunks demoWriteDownServices (lit "doc") (lit "a.pdf") demoChunks).upserts.flatten.length =
      50 ∧
    (storeChunks demoWriteDownServices (lit "doc") (lit "a.pdf") demoChunks).failure =
      some { message := lit "write failed" } := by
  refine ⟨fun _ _ h => by simp [demoWriteDownServices] at h, by decide, by decide, by decide,
    by decide, by decide⟩

/-! ## Retrieval and answers (C7, C8, C9, C10) -/

theorem processQuery_requests {F : Type} [LinearOrderedField F] (env : Services F)
    (userQuery documentId : JStr) :
    (processQuery env userQuery documentId).requests =
      [searchRequest env userQuery documentId 5] := by
  unfold processQuery processQueryTry
  simp only [searchSimilarChunks]
  split <;> split <;> (try split) <;> (try split) <;> simp_all

/-- C7: the request issued by `searchSimilarChunks` carries the filter
`documentId = X` and `topK = k`, with `k = 5` from `processQuery`; so, with an
index that honours the filter and `topK` of a request, every returned match
belongs to the document `X` and at most `k` of them are returned. -/
theorem searchSimilarChunks_scoped {F : Type} [LinearOrderedField F] (env : Services F)
    (query documentId : JStr) (topK : Nat)
    (hstore : ∀ (request : QueryRequest F) (found : List (Match F)),
      env.query request = .ok (some found) →
        (∀ m ∈ found, m.metadata.documentId = request.filter) ∧
          found.length ≤ request.topK) :
    (∃ request, (searchSimilarChunks env query documentId topK).requests = [request] ∧
      request.filter = documentId ∧ request.topK = topK ∧
      request.vector = getEmbedding env query ∧ request.includeMetadata = true) ∧
    (∃ request, (processQuery env query documentId).requests = [request] ∧
      request.filter = documentId ∧ request.topK = 5) ∧
    (∀ found, (searchSimilarChunks env query documentId topK).result = .ok found →
      (∀ m ∈ found, m.metadata.documentId = documentId) ∧ found.length ≤ topK) := by
  refine ⟨⟨_, rfl, rfl, rfl, rfl, rfl⟩, ⟨_, processQuery_requests env query documentId, rfl, rfl⟩,
    ?_⟩
  intro found hres
  simp only [searchSimilarChunks] at hres
  cases hq : env.query (searchRequest env query documentId topK) with
  | error e => rw [hq] at hres; simp at hres
  | ok resp =>
    rw [hq] at hres
    simp only [Except.ok.injEq] at hres
    cases resp with
    | none =>
      simp only [Option.getD_none] at hres
      subst hres
      simp
    | some ms =>
      simp only [Option.getD_some] at hres
      subst hres
      exact hstore _ _ hq

theorem demoFilterServices_honours (request : QueryRequest ℚ) (found : List (Match ℚ))
    (h : demoFilterServices.query request = .ok (some found)) :
    (∀ m ∈ found, m.metadata.documentId = request.filter) ∧
      found.length ≤ request.topK := by
  simp only [demoFilterServices, Except.ok.injEq, Option.some.injEq] at h
  subst h
  refine ⟨?_, ?_⟩
  · intro m hm
    have := List.mem_of_mem_take hm
    rw [List.mem_filter] at this
    simpa using this.2
  · rw [List.length_take]
    exact Nat.min_le_left _ _

/-- Witness of C7: a query for the document `doc` with `topK = 1` against an
index that also holds a chunk of another document. -/
theorem searchSimilarChunks_scoped_witness :
    (∀ (request : QueryRequest ℚ) (found : List (Match ℚ)),
      demoFilterServices.query request = .ok (some found) →
        (∀ m ∈ found, m.metadata.documentId = request.filter) ∧
          found.length ≤ request.topK) ∧
    (∀ found,
      (searchSimilarChunks demoFilterServices (lit "first") (lit "doc") 1).result = .ok found →
        (∀ m ∈ found, m.metadata.documentId = lit "doc") ∧ found.length ≤ 1) ∧
    (searchSimilarChunks demoFilterServices (lit "first") (lit "doc") 1).requests.map
      (fun request => (request.filter, request.topK)) = [(lit "doc", 1)] :=
  ⟨demoFilterServices_honours,
    (searchSimilarChunks_scoped demoFilterServices (lit "first") (lit "doc") 1
      demoFilterServices_honours).2.2, rfl⟩

/-- C8: when the index returns no match, as an empty list or as a response
without a list, `processQuery` returns the fixed "couldn't find relevant
information" answer with no sources, and no prompt is sent to the generation
model. -/
theorem processQuery_no_match {F : Type} [LinearOrderedField F] (env : Services F)
    (userQuery documentId : JStr)
    (h : env.query (searchRequest env userQuery documentId 5) = .ok none ∨
      env.query (searchRequest env userQuery documentId 5) = .ok (some [])) :
    (∃ result, (processQuery env userQuery documentId).outcome = .ok result ∧
      result.answer = noMatchAnswer ∧ result.sources = []) ∧
    (processQuery env userQuery documentId).prompts = [] := by
  unfold processQuery processQueryTry
  simp only [searchSimilarChunks]
  rcases h with h | h <;> rw [h] <;> simp

/-- Witness of C8: a question to services whose index finds nothing. -/
theorem processQuery_no_match_witness :
    (demoServices.query (searchRequest demoServices (lit "What?") (lit "doc") 5) = .ok none ∨
      demoServices.query (searchRequest demoServices (lit "What?") (lit "doc") 5) =
        .ok (some [])) ∧
    (∃ result, (processQuery demoServices (lit "What?") (lit "doc")).outcome = .ok result ∧
      result.answer = noMatchAnswer ∧ result.sources = []) ∧
    (processQuery demoServices (lit "What?") (lit "doc")).prompts = [] :=
  ⟨Or.inr rfl, processQuery_no_match demoServices (lit "What?") (lit "doc") (Or.inr rfl)⟩

/-- C9: when retrieval returns at least one match and the generation call
throws an error, `processQuery` returns an answer that contains the message of
the error, with no sources, and the chat route responds with status 200. -/
theorem processQuery_generation_failure {F : Type} [LinearOrderedField F] (env : Services F)
    (userQuery documentId : JStr) (found : List (Match F)) (error : JsError)
    (hq : env.query (searchRequest env userQuery documentId 5) = .ok (some found))
    (hne : found ≠ [])
    (hgen : env.generateContent (promptOf (contextOf found) userQuery) = .error error)
    (hmsg : userQuery ≠ []) (hdoc : documentId ≠ []) :
    (∃ result, (processQuery env userQuery documentId).outcome = .ok result ∧
      result.answer =
        lit "I encountered an error while processing your question: " ++ error.message ++
          lit ". Please try again with a different question." ∧
      result.sources = []) ∧
    (∃ response, chatRoute env (some userQuery) (some documentId) =
      { status := 200, body := .success response } ∧
      response.answer = errorAnswer error) := by
  have hlen : found.length ≠ 0 := fun h => hne (List.eq_nil_of_length_eq_zero h)
  have hout : (processQuery env userQuery documentId).outcome =
      .ok { answer := errorAnswer error, sources := [] } := by
    unfold processQuery processQueryTry
    simp only [searchSimilarChunks, hq, Option.getD_some, hlen, if_false, hgen]
  refine ⟨⟨_, hout, rfl, rfl⟩, ?_⟩
  unfold chatRoute
  have h1 : isFalsy (some userQuery) = false := by
    cases userQuery with
    | nil => exact absurd rfl hmsg
    | cons a l => rfl
  have h2 : isFalsy (some documentId) = false := by
    cases documentId with
    | nil => exact absurd rfl hdoc
    | cons a l => rfl
  simp only [h1, h2, Bool.or_self, Bool.false_eq_true, if_false, Option.getD_some, hout]
  exact ⟨_, rfl, rfl⟩

/-- The matches of the document `doc` in `demoMatches`. -/
theorem demoFilterServices_query :
    demoFilterServices.query (searchRequest demoFilterServices (lit "first") (lit "doc") 5) =
      .ok (some ((demoMatches.filter
        (fun m => decide (m.metadata.documentId = lit "doc"))).take 5)) := rfl

theorem demoFilterServices_found_ne_nil :
    (demoMatches.filter (fun m => decide (m.metadata.documentId = lit "doc"))).take 5 ≠ [] := by
  intro h
  have h2 := congrArg List.length h
  revert h2
  decide

/-- Witness of C9: two matches are found and the generation model throws the
error `quota`. -/
theorem processQuery_generation_failure_witness :
    (∃ result, (processQuery demoFilterServices (lit "first") (lit "doc")).outcome = .ok result ∧
      result.answer =
        lit "I encountered an error while processing your question: " ++ lit "quota" ++
          lit ". Please try again with a different question." ∧
      result.sources = []) ∧
    (∃ response, chatRoute demoFilterServices (some (lit "first")) (some (lit "doc")) =
      { status := 200, body := .success response } ∧
      response.answer = errorAnswer { message := lit "quota" }) :=
  processQuery_generation_failure demoFilterServices (lit "first") (lit "doc") _
    { message := lit "quota" } demoFilterServices_query demoFilterServices_found_ne_nil rfl
    (by decide) (by decide)

theorem isFalsy_some_ne_nil (s : JStr) (h : s ≠ []) : isFalsy (some s) = false := by
  cases s with
  | nil => exact absurd rfl h
  | cons a l => rfl

/-- C10 (as amended): when the query of the index throws an error,
`processQuery` does not fail: its `catch` block returns the answer that
contains the message of the error, with no sources and without a call of the
generation model, and the chat route responds with status 200. -/
theorem processQuery_query_failure {F : Type} [LinearOrderedField F] (env : Services F)
    (userQuery documentId : JStr) (error : JsError)
    (hq : env.query (searchRequest env userQuery documentId 5) = .error error)
    (hmsg : userQuery ≠ []) (hdoc : documentId ≠ []) :
    (∃ result, (processQuery env userQuery documentId).outcome = .ok result ∧
      result.answer =
        lit "I encountered an error while processing your question: " ++ error.message ++
          lit ". Please try again with a different question." ∧
      result.sources = []) ∧
    (processQuery env userQuery documentId).prompts = [] ∧
    (searchSimilarChunks env userQuery documentId 5).result = .error error ∧
    (∃ response, chatRoute env (some userQuery) (some documentId) =
      { status := 200, body := .success response } ∧
      response.answer = errorAnswer error) := by
  have hout : (processQuery env userQuery documentId).outcome =
      .ok { answer := errorAnswer error, sources := [] } := by
    unfold processQuery processQueryTry
    simp only [searchSimilarChunks, hq]
  refine ⟨⟨_, hout, rfl, rfl⟩, ?_, ?_, ?_⟩
  · unfold processQuery processQueryTry
    simp only [searchSimilarChunks, hq]
  · simp only [searchSimilarChunks, hq]
  · unfold chatRoute
    simp only [isFalsy_some_ne_nil _ hmsg, isFalsy_some_ne_nil _ hdoc, Bool.or_self,
      Bool.false_eq_true, if_false, Option.getD_some, hout]
    exact ⟨_, rfl, rfl⟩

/-- Witness of C10 (as amended): a question to services whose index is down. -/
theorem processQuery_query_failure_witness :
    demoDownServices.query (searchRequest demoDownServices (lit "What?") (lit "doc") 5) =
      .error { message := lit "index down" } ∧
    (processQuery demoDownServices (lit "What?") (lit "doc")).prompts = [] ∧
    (∃ response, chatRoute demoDownServices (some (lit "What?")) (some (lit "doc")) =
      { status := 200, body := .success response } ∧
      response.answer = errorAnswer { message := lit "index down" }) :=
  ⟨rfl, (processQuery_query_failure demoDownServices (lit "What?") (lit "doc")
    { message := lit "index down" } rfl (by decide) (by decide)).2.1,
    (processQuery_query_failure demoDownServices (lit "What?") (lit "doc")
    { message := lit "index down" } rfl (by decide) (by decide)).2.2.2⟩

/-- C10 (counterexample): with an index that throws `index down` on every
query, `searchSimilarChunks` fails, yet `processQuery` returns an object and
the chat route responds with status 200 and a success body. -/
theorem processQuery_query_failure_counterexample :
    (searchSimilarChunks demoDownServices (lit "What?") (lit "doc") 5).result =
      .error { message := lit "index down" } ∧
    (∃ result, (processQuery demoDownServices (lit "What?") (lit "doc")).outcome = .ok result) ∧
    (∀ error, (processQuery demoDownServices (lit "What?") (lit "doc")).outcome ≠ .error error) ∧
    (chatRoute demoDownServices (some (lit "What?")) (some (lit "doc"))).status = 200 ∧
    (∃ response, (chatRoute demoDownServices (some (lit "What?")) (some (lit "doc"))).body =
      .success response) := by
  refine ⟨rfl, ⟨_, rfl⟩, ?_, rfl, ⟨_, rfl⟩⟩
  intro error h
  have h2 : (processQuery demoDownServices (lit "What?") (lit "doc")).outcome =
      .ok { answer := errorAnswer { message := lit "index down" }, sources := [] } := rfl
  rw [h2] at h
  cases h

/-! ## The hash as a polynomial (C15) -/

theorem toInt32_range (x : Int) : -2 ^ 31 ≤ toInt32 x ∧ toInt32 x < 2 ^ 31 := by
  unfold toInt32
  norm_num
  omega

theorem toInt32_congr (x y : Int) (h : x % 2 ^ 32 = y % 2 ^ 32) : toInt32 x = toInt32 y := by
  unfold toInt32
  norm_num at h ⊢
  omega

theorem toInt32_of_range (x : Int) (h : -2 ^ 31 ≤ x ∧ x < 2 ^ 31) : toInt32 x = x := by
  unfold toInt32
  norm_num at h ⊢
  omega

theorem hashStep_eq (h : Int) (c : Nat) : hashStep h c = toInt32 (h * 31 + (c : Int)) := by
  unfold hashStep shl5
  apply toInt32_congr
  unfold toInt32
  norm_num
  omega

theorem foldl_hashStep_congr (s : JStr) (x y : Int) (h : x % 2 ^ 32 = y % 2 ^ 32) :
    (s.foldl hashStep x) % 2 ^ 32 =
      (s.foldl (fun (hash : Int) (char : Nat) => hash * 31 + (char : Int)) y) % 2 ^ 32 := by
  induction s generalizing x y with
  | nil => exact h
  | cons c cs ih =>
    rw [List.foldl_cons, List.foldl_cons]
    apply ih
    rw [hashStep_eq]
    unfold toInt32
    norm_num at h ⊢
    omega

theorem foldl_hashStep_range (s : JStr) (x : Int) (h : -2 ^ 31 ≤ x ∧ x < 2 ^ 31) :
    -2 ^ 31 ≤ s.foldl hashStep x ∧ s.foldl hashStep x < 2 ^ 31 := by
  induction s generalizing x with
  | nil => exact h
  | cons c cs ih =>
    rw [List.foldl_cons]
    apply ih
    rw [hashStep_eq]
    exact toInt32_range _

theorem foldl_hashStep_eq (s : JStr) : s.foldl hashStep 0 = toInt32 (hornerHash s) := by
  rw [← toInt32_of_range _ (foldl_hashStep_range s 0 (by norm_num))]
  exact toInt32_congr _ _ (foldl_hashStep_congr s 0 0 rfl)

theorem foldl_horner (s : JStr) (a : Int) :
    s.foldl (fun (hash : Int) (char : Nat) => hash * 31 + (char : Int)) a =
      a * 31 ^ s.length + polySum s := by
  induction s generalizing a with
  | nil => simp [polySum]
  | cons c cs ih =>
    rw [List.foldl_cons, ih]
    simp only [polySum, List.length_cons]
    ring

theorem hornerHash_eq_polySum (s : JStr) : hornerHash s = polySum s := by
  unfold hornerHash
  rw [foldl_horner]
  simp

/-- C15: `simpleHash` is the absolute value of the signed 32-bit wrap of the
polynomial sum of the code units; the loop that truncates after every step
gives the wrap of the recurrence `hash * 31 + charCode` computed without
truncation; the result is non-negative and at most `2^31`. -/
theorem simpleHash_polynomial (s : JStr) :
    simpleHash s = |toInt32 (polySum s)| ∧
    s.foldl hashStep 0 = toInt32 (hornerHash s) ∧
    hornerHash s = polySum s ∧
    0 ≤ simpleHash s ∧ simpleHash s ≤ 2 ^ 31 := by
  have h1 : simpleHash s = |toInt32 (polySum s)| := by
    unfold simpleHash mathAbs
    rw [foldl_hashStep_eq, hornerHash_eq_polySum, Int.natCast_natAbs]
  refine ⟨h1, foldl_hashStep_eq s, hornerHash_eq_polySum s, ?_, ?_⟩
  · rw [h1]; exact abs_nonneg _
  · rw [h1, abs_le]
    have := toInt32_range (polySum s)
    constructor <;> linarith [this.1, this.2]

/-! ## Empty results and the overlap seed (C16, C14) -/

theorem trim_eq_nil_of_all_space (s : JStr) (h : ∀ c ∈ s, isJsSpace c = true) : trim s = [] := by
  unfold trim
  rw [List.dropWhile_eq_nil_iff.mpr h, List.rdropWhile_nil]

theorem sentencesOf_eq_nil (text : JStr)
    (h : ∀ c ∈ text, isJsSpace c = true ∨ isTerminator c = true) : sentencesOf text = [] := by
  unfold sentencesOf
  rw [List.filter_eq_nil_iff]
  intro piece hpiece
  have hall : ∀ c ∈ piece, isJsSpace c = true := by
    intro c hc
    have hj : c ∈ (splitRuns isTerminator text).flatten := List.mem_flatten.mpr ⟨piece, hpiece, hc⟩
    rw [flatten_splitRuns, List.mem_filter] at hj
    rcases h c hj.1 with h1 | h1
    · exact h1
    · simp [h1] at hj
  simp [trim_eq_nil_of_all_space piece hall]

theorem splitTextIntoChunks_of_no_sentence (text : JStr) (M ov : Nat)
    (h : sentencesOf text = []) : splitTextIntoChunks text M ov = [] := by
  simp [splitTextIntoChunks, chunkLoop, h, finishChunks, trim, List.rdropWhile_nil]

/-- C16: `splitTextIntoChunks` returns the empty list exactly when no sentence
survives the filter, which is exactly when every code unit of the text is white
space or one of the marks `.` `!` `?`; so it does for the empty string, and
every other text gives at least one chunk. -/
theorem splitTextIntoChunks_eq_nil_iff (text : JStr) (maxChunkSize overlap : Nat) :
    (splitTextIntoChunks text maxChunkSize overlap = [] ↔ sentencesOf text = []) ∧
    (sentencesOf text = [] ↔ ∀ c ∈ text, isJsSpace c = true ∨ isTerminator c = true) ∧
    (splitTextIntoChunks text maxChunkSize overlap = [] ↔
      ∀ c ∈ text, isJsSpace c = true ∨ isTerminator c = true) ∧
    splitTextIntoChunks [] maxChunkSize overlap = [] := by
  have h1 : splitTextIntoChunks text maxChunkSize overlap = [] ↔ sentencesOf text = [] := by
    constructor
    · intro h
      by_contra hne
      exact finishChunks_ne_nil maxChunkSize overlap _
        (chunkLoop_ends maxChunkSize overlap (sentencesOf text) hne
          (trim_ne_nil_of_mem_sentencesOf text)) h
    · exact splitTextIntoChunks_of_no_sentence text maxChunkSize overlap
  have h2 : sentencesOf text = [] ↔ ∀ c ∈ text, isJsSpace c = true ∨ isTerminator c = true := by
    constructor
    · intro h c hc
      by_contra hcon
      push_neg at hcon
      exact sentencesOf_ne_nil text ⟨c, hc, by simpa using hcon.1, by simpa using hcon.2⟩ h
    · exact sentencesOf_eq_nil text
  exact ⟨h1, h2, h1.trans h2, splitTextIntoChunks_of_no_sentence [] _ _ (by decide)⟩

theorem sliceLast_pos (b : JStr) (n : Nat) (hn : 0 < n) :
    sliceLast b n = b.drop (b.length - n) := by
  unfold sliceLast
  rw [if_neg (by omega)]

/-- When `chunkStep` closes a chunk, the next buffer is the seed
`currentChunk.slice(-overlap)`, one space and the trimmed sentence; for a
positive overlap the seed is the last `overlap` code units of the closed buffer
(the whole buffer when it is shorter), for the overlap 0 it is the whole closed
buffer. -/
theorem chunkStep_close (M ov : Nat) (st : ChunkState) (s : JStr)
    (h : st.currentSize + (trim s).length > M ∧ st.currentChunk.length > 0) :
    (chunkStep M ov st s).chunks = st.chunks ++ [closeChunk M ov st.chunks st.currentChunk] ∧
    (chunkStep M ov st s).currentChunk = sliceLast st.currentChunk ov ++ lit " " ++ trim s ∧
    (0 < ov → sliceLast st.currentChunk ov = st.currentChunk.drop (st.currentChunk.length - ov)) ∧
    (ov = 0 → sliceLast st.currentChunk ov = st.currentChunk) := by
  refine ⟨?_, ?_, sliceLast_pos _ _, ?_⟩
  · simp [chunkStep, h]
  · simp [chunkStep, h]
  · intro h0
    simp [sliceLast, h0]

/-- C14 (failing input): with `maxChunkSize = 10` and `overlap = 0`, the step
that closes the chunk `aaaaaaaa` at the sentence `bbbbbbbb` leaves the buffer
`aaaaaaaa bbbbbbbb`: the whole closed buffer is repeated, as `slice(-0)` is the
whole string; so the chunks of `aaaaaaaa. bbbbbbbb. cc` repeat all that came
before. -/
theorem chunkStep_overlap_zero_repeats :
    chunkLoop 10 0 [lit "aaaaaaaa"] =
      { chunks := [], currentChunk := lit "aaaaaaaa", currentSize := 9 } ∧
    (chunkStep 10 0 (chunkLoop 10 0 [lit "aaaaaaaa"]) (lit " bbbbbbbb")).chunks.map
      (fun c => c.text) = [lit "aaaaaaaa"] ∧
    (chunkStep 10 0 (chunkLoop 10 0 [lit "aaaaaaaa"]) (lit " bbbbbbbb")).currentChunk =
      lit "aaaaaaaa bbbbbbbb" ∧
    sliceLast (lit "aaaaaaaa") 0 = lit "aaaaaaaa" ∧
    (splitTextIntoChunks (lit "aaaaaaaa. bbbbbbbb. cc") 10 0).map (fun c => c.text) =
      [lit "aaaaaaaa", lit "aaaaaaaa bbbbbbbb", lit "aaaaaaaa bbbbbbbb cc"] ∧
    (splitTextIntoChunks (lit "aaaaaaaa. bbbbbbbb. cc") 10 1).map (fun c => c.text) =
      [lit "aaaaaaaa", lit "a bbbbbbbb", lit "b cc"] := by
  refine ⟨by decide, by decide, by decide, by decide, by decide, by decide⟩

/-! ## Extraction and the upload route (C11, C12, C13, C17) -/

theorem finishExtraction_ok (text : JStr) (h : 10 ≤ (cleanText text).length) :
    finishExtraction text = .ok (cleanText text) := by
  unfold finishExtraction
  have h1 : (cleanText text).isEmpty = false := by
    cases hc : cleanText text with
    | nil => rw [hc] at h; simp at h
    | cons a l => rfl
  simp [h1]
  omega

theorem finishExtraction_error (text : JStr) (h : (cleanText text).length < 10) :
    finishExtraction text = .error (extractionError emptyPdfError) := by
  unfold finishExtraction
  simp [h]

theorem extract_missing (files : FileSystem) (pdfParse : PdfParse) (filePath : JStr)
    (h : files filePath = none) :
    extractTextFromPDF files pdfParse filePath =
      { parserCalls := [], result := .error (extractionError (enoent (lit "open") filePath)) } := by
  simp [extractTextFromPDF, readFileSync, h]

theorem extract_unparsed (files : FileSystem) (pdfParse : PdfParse) (filePath : JStr)
    (bytes : List Nat) (h : files filePath = some bytes) (hp : parsedText pdfParse bytes = none) :
    ∃ e, extractTextFromPDF files pdfParse filePath =
      { parserCalls := [0, 200], result := .error (extractionError e) } := by
  unfold parsedText at hp
  simp only [extractTextFromPDF, readFileSync, h]
  cases h0 : pdfParse bytes 0 with
  | ok t => rw [h0] at hp; simp at hp
  | error e0 =>
    rw [h0] at hp
    simp only at hp ⊢
    cases h1 : pdfParse bytes 200 with
    | ok t => rw [h1] at hp; simp at hp
    | error e1 => exact ⟨e1, rfl⟩

theorem extract_parsed (files : FileSystem) (pdfParse : PdfParse) (filePath : JStr)
    (bytes : List Nat) (text : JStr) (h : files filePath = some bytes)
    (hp : parsedText pdfParse bytes = some text) :
    (extractTextFromPDF files pdfParse filePath).result = finishExtraction text ∧
      ((extractTextFromPDF files pdfParse filePath).parserCalls = [0] ∨
        (extractTextFromPDF files pdfParse filePath).parserCalls = [0, 200]) := by
  unfold parsedText at hp
  simp only [extractTextFromPDF, readFileSync, h]
  cases h0 : pdfParse bytes 0 with
  | ok t =>
    rw [h0] at hp
    simp only [Option.some.injEq] at hp
    subst hp
    exact ⟨rfl, Or.inl rfl⟩
  | error e0 =>
    rw [h0] at hp
    simp only at hp ⊢
    cases h1 : pdfParse bytes 200 with
    | ok t =>
      rw [h1] at hp
      simp only [Option.some.injEq] at hp
      subst hp
      exact ⟨rfl, Or.inr rfl⟩
    | error e1 => rw [h1] at hp; simp at hp

theorem parserCalls_cases (files : FileSystem) (pdfParse : PdfParse) (filePath : JStr) :
    ((extractTextFromPDF files pdfParse filePath).parserCalls = [] ∧ files filePath = none) ∨
      ((extractTextFromPDF files pdfParse filePath).parserCalls = [0] ∧
        ∃ bytes text, files filePath = some bytes ∧ pdfParse bytes 0 = .ok text) ∨
      ((extractTextFromPDF files pdfParse filePath).parserCalls = [0, 200] ∧
        ∃ bytes e, files filePath = some bytes ∧ pdfParse bytes 0 = .error e) := by
  cases h : files filePath with
  | none =>
    left
    rw [extract_missing files pdfParse filePath h]
    exact ⟨rfl, rfl⟩
  | some bytes =>
    right
    simp only [extractTextFromPDF, readFileSync, h]
    cases h0 : pdfParse bytes 0 with
    | ok t => exact Or.inl ⟨rfl, bytes, t, rfl, h0⟩
    | error e0 =>
      right
      cases h1 : pdfParse bytes 200 with
      | ok t => exact ⟨rfl, bytes, e0, rfl, h0⟩
      | error e1 => exact ⟨rfl, bytes, e0, rfl, h0⟩

/-- C11 (as amended): `extractTextFromPDF` fails exactly when the file cannot be
read, or the parser throws on the primary attempt and on the retry with the
ceiling of 200 pages, or the cleaned text has fewer than 10 code units; in
every other case it returns the cleaned text, of at least 10 code units. The
parser is called at most twice, and a second time, with the ceiling, exactly
when the first call has thrown. -/
theorem extractTextFromPDF_outcome (files : FileSystem) (pdfParse : PdfParse)
    (filePath : JStr) :
    ((∃ e, (extractTextFromPDF files pdfParse filePath).result = .error e) ↔
      (files filePath = none ∨
        ∃ bytes, files filePath = some bytes ∧
          (parsedText pdfParse bytes = none ∨
            ∃ text, parsedText pdfParse bytes = some text ∧ (cleanText text).length < 10))) ∧
    (∀ t, (extractTextFromPDF files pdfParse filePath).result = .ok t ↔
      ∃ bytes text, files filePath = some bytes ∧ parsedText pdfParse bytes = some text ∧
        10 ≤ (cleanText text).length ∧ t = cleanText text) ∧
    (∀ bytes, parsedText pdfParse bytes = none ↔
      (∃ e, pdfParse bytes 0 = .error e) ∧ ∃ e, pdfParse bytes 200 = .error e) ∧
    (extractTextFromPDF files pdfParse filePath).parserCalls.length ≤ 2 ∧
    ((extractTextFromPDF files pdfParse filePath).parserCalls = [] ∨
      (extractTextFromPDF files pdfParse filePath).parserCalls = [0] ∨
      (extractTextFromPDF files pdfParse filePath).parserCalls = [0, 200]) ∧
    ((extractTextFromPDF files pdfParse filePath).parserCalls = [0, 200] ↔
      ∃ bytes e, files filePath = some bytes ∧ pdfParse bytes 0 = .error e) := by
  have hcases := parserCalls_cases files pdfParse filePath
  have hres : (files filePath = none ∧
        ∃ e, (extractTextFromPDF files pdfParse filePath).result = .error e) ∨
      (∃ bytes, files filePath = some bytes ∧ parsedText pdfParse bytes = none ∧
        ∃ e, (extractTextFromPDF files pdfParse filePath).result = .error e) ∨
      (∃ bytes text, files filePath = some bytes ∧ parsedText pdfParse bytes = some text ∧
        (cleanText text).length < 10 ∧
        ∃ e, (extractTextFromPDF files pdfParse filePath).result = .error e) ∨
      (∃ bytes text, files filePath = some bytes ∧ parsedText pdfParse bytes = some text ∧
        10 ≤ (cleanText text).length ∧
        (extractTextFromPDF files pdfParse filePath).result = .ok (cleanText text)) := by
    cases h : files filePath with
    | none =>
      left
      rw [extract_missing files pdfParse filePath h]
      exact ⟨rfl, _, rfl⟩
    | some bytes =>
      right
      cases hp : parsedText pdfParse bytes with
      | none =>
        left
        obtain ⟨e, he⟩ := extract_unparsed files pdfParse filePath bytes h hp
        rw [he]
        exact ⟨bytes, rfl, hp, _, rfl⟩
      | some text =>
        right
        have := (extract_parsed files pdfParse filePath bytes text h hp).1
        by_cases hlen : (cleanText text).length < 10
        · left
          rw [this, finishExtraction_error text hlen]
          exact ⟨bytes, text, rfl, hp, hlen, _, rfl⟩
        · right
          rw [this, finishExtraction_ok text (by omega)]
          exact ⟨bytes, text, rfl, hp, by omega, rfl⟩
  refine ⟨?_, ?_, ?_, ?_, ?_, ?_⟩
  · constructor
    · rintro ⟨e, he⟩
      rcases hres with ⟨h, -⟩ | ⟨b, h, hp, -⟩ | ⟨b, t, h, hp, hl, -⟩ | ⟨b, t, h, hp, hl, hr⟩
      · exact Or.inl h
      · exact Or.inr ⟨b, h, Or.inl hp⟩
      · exact Or.inr ⟨b, h, Or.inr ⟨t, hp, hl⟩⟩
      · rw [hr] at he; cases he
    · intro hc
      rcases hres with ⟨h, he⟩ | ⟨b, h, hp, he⟩ | ⟨b, t, h, hp, hl, he⟩ | ⟨b, t, h, hp, hl, hr⟩
      · exact he
      · exact he
      · exact he
      · rcases hc with hc | ⟨b', h', hc⟩
        · rw [h] at hc; cases hc
        · rw [h] at h'
          cases h'
          rcases hc with hc | ⟨t', hp', hl'⟩
          · rw [hp] at hc; cases hc
          · rw [hp] at hp'
            cases hp'
            omega
  · intro t
    constructor
    · intro ht
      rcases hres with ⟨h, e, he⟩ | ⟨b, h, hp, e, he⟩ | ⟨b, t', h, hp, hl, e, he⟩ |
        ⟨b, t', h, hp, hl, hr⟩
      · rw [he] at ht; cases ht
      · rw [he] at ht; cases ht
      · rw [he] at ht; cases ht
      · rw [hr] at ht
        cases ht
        exact ⟨b, t', h, hp, hl, rfl⟩
    · rintro ⟨b, text, h, hp, hl, rfl⟩
      rw [(extract_parsed files pdfParse filePath b text h hp).1, finishExtraction_ok text hl]
  · intro bytes
    unfold parsedText
    cases h0 : pdfParse bytes 0 with
    | ok t => simp
    | error e0 =>
      cases h1 : pdfParse bytes 200 with
      | ok t => simp
      | error e1 => simp
  · rcases hcases with ⟨h, -⟩ | ⟨h, -⟩ | ⟨h, -⟩ <;> rw [h] <;> simp
  · rcases hcases with ⟨h, -⟩ | ⟨h, -⟩ | ⟨h, -⟩
    · exact Or.inl h
    · exact Or.inr (Or.inl h)
    · exact Or.inr (Or.inr h)
  · constructor
    · intro h
      rcases hcases with ⟨h', -⟩ | ⟨h', -⟩ | ⟨-, hx⟩
      · rw [h'] at h; cases h
      · rw [h'] at h; cases h
      · exact hx
    · rintro ⟨b, e, hb, he⟩
      rcases hcases with ⟨-, h'⟩ | ⟨-, b', t, hb', ht⟩ | ⟨hx, -⟩
      · rw [hb] at h'; cases h'
      · rw [hb] at hb'
        cases hb'
        rw [he] at ht
        cases ht
      · exact hx

/-- C11 (counterexample): no file is stored under `uploads/missing.pdf`, so
`extractTextFromPDF` fails without a call of the parser, although the parser
throws on no input and the cleaned text of its output has 12 code units. -/
theorem extractTextFromPDF_outcome_counterexample :
    demoFiles (lit "uploads/missing.pdf") = none ∧
    (extractTextFromPDF demoFiles demoParse (lit "uploads/missing.pdf")).result =
      .error (extractionError (enoent (lit "open") (lit "uploads/missing.pdf"))) ∧
    (extractTextFromPDF demoFiles demoParse (lit "uploads/missing.pdf")).parserCalls = [] ∧
    (∀ bytes max, demoParse bytes max = .ok (lit "hello é world")) ∧
    (cleanText (lit "hello é world")).length = 12 := by
  refine ⟨by decide, rfl, by decide, fun _ _ => rfl, by decide⟩

theorem mem_collapseSpaceAux (prev : Bool) (s : JStr) (c : Nat)
    (h : c ∈ collapseSpaceAux prev s) : c = 0x20 ∨ (c ∈ s ∧ isJsSpace c = false) := by
  induction s generalizing prev with
  | nil => simp [collapseSpaceAux] at h
  | cons a l ih =>
    unfold collapseSpaceAux at h
    split at h
    next ha =>
      split at h
      · rcases ih true h with h1 | h1
        · exact Or.inl h1
        · exact Or.inr ⟨List.mem_cons_of_mem _ h1.1, h1.2⟩
      · rcases List.mem_cons.mp h with h1 | h1
        · exact Or.inl h1
        · rcases ih true h1 with h2 | h2
          · exact Or.inl h2
          · exact Or.inr ⟨List.mem_cons_of_mem _ h2.1, h2.2⟩
    next ha =>
      rcases List.mem_cons.mp h with h1 | h1
      · right
        subst h1
        exact ⟨List.mem_cons_self _ _, by simpa using ha⟩
      · rcases ih false h1 with h2 | h2
        · exact Or.inl h2
        · exact Or.inr ⟨List.mem_cons_of_mem _ h2.1, h2.2⟩

theorem mem_collapseBlankLinesAux (fuel : Nat) (s : JStr) (c : Nat)
    (h : c ∈ collapseBlankLinesAux fuel s) : c ∈ s := by
  induction fuel generalizing s with
  | zero => simpa [collapseBlankLinesAux] using h
  | succ fuel ih =>
    cases s with
    | nil => simp [collapseBlankLinesAux] at h
    | cons a l =>
      unfold collapseBlankLinesAux at h
      split at h
      next ha =>
        split at h
        next k hk =>
          rcases List.mem_cons.mp h with h1 | h1
          · rw [h1, ← ha]
            exact List.mem_cons_self _ _
          · exact List.mem_cons_of_mem _ (List.mem_of_mem_drop (ih _ h1))
        next hk =>
          rcases List.mem_cons.mp h with h1 | h1
          · rw [h1]
            exact List.mem_cons_self _ _
          · exact List.mem_cons_of_mem _ (ih _ h1)
      next ha =>
        rcases List.mem_cons.mp h with h1 | h1
        · rw [h1]
          exact List.mem_cons_self _ _
        · exact List.mem_cons_of_mem _ (ih _ h1)

theorem mem_of_mem_trim (s : JStr) (c : Nat) (h : c ∈ trim s) : c ∈ s := by
  unfold trim at h
  exact (List.dropWhile_suffix isJsSpace).subset
    ((List.rdropWhile_prefix isJsSpace _).subset h)

/-- The cleaned text holds printable ASCII characters only. -/
theorem cleanText_printable (text : JStr) (c : Nat) (h : c ∈ cleanText text) :
    0x20 ≤ c ∧ c ≤ 0x7E := by
  unfold cleanText stripNonPrintable at h
  have h1 := mem_of_mem_trim _ _ h
  rw [List.mem_filter] at h1
  obtain ⟨h2, h3⟩ := h1
  have h4 := mem_collapseBlankLinesAux _ _ _ h2
  have h5 := mem_collapseSpaceAux false _ _ h4
  unfold isKept at h3
  simp only [Bool.or_eq_true, Bool.and_eq_true, decide_eq_true_eq, beq_iff_eq] at h3
  rcases h3 with h3 | h3
  · exact h3
  · rcases h5 with h5 | h5
    · omega
    · rw [h3] at h5
      exact absurd h5.2 (by decide)

/-- C12 (failing input): for the parser text `hello é world` the cleaned text
returned by `extractTextFromPDF` is `hello  world`, with two consecutive
spaces: the white space is collapsed before the character `é` is removed. -/
theorem cleanText_double_space :
    collapseSpace (lit "hello é world") = lit "hello é world" ∧
    cleanText (lit "hello é world") = lit "hello  world" ∧
    (extractTextFromPDF demoFiles demoParse (lit "uploads/a.pdf")).result =
      .ok (lit "hello  world") ∧
    [0x20, 0x20] <:+: lit "hello  world" ∧
    (∀ c ∈ cleanText (lit "hello é world"), 0x20 ≤ c ∧ c ≤ 0x7E) := by
  refine ⟨by decide, by decide, rfl, ⟨lit "hello", lit "world", by decide⟩, by decide⟩

theorem uploadCatch_files {F : Type} (files : FileSystem) (path : JStr) (error : JsError)
    (calls : List (JStr × JStr)) (ups : List (List (VectorRecord F))) :
    (uploadCatch files (some path) error calls ups).files path = none := by
  unfold uploadCatch existsSync
  simp only
  cases h : files path with
  | none => simp [h]
  | some b => simp [unlinkSync]

/-- C13: for an upload with a non-empty file whose text extraction fails, the
route never calls `processAndStoreDocument`, nothing is written to the index,
the temporary file is removed (no other file is touched), and the response has
status 500 with the message of the error. -/
theorem uploadRoute_extraction_failure {F : Type} [LinearOrderedField F] (env : Services F)
    (pdfParse : PdfParse) (ensureIndexExists : Except JsError Unit) (documentId : JStr)
    (files : FileSystem) (f : UploadedFile) (bytes : List Nat) (error : JsError)
    (hfile : files f.path = some bytes) (hsize : 0 < bytes.length)
    (hfail : (extractTextFromPDF files pdfParse f.path).result = .error error) :
    (uploadRoute env pdfParse ensureIndexExists documentId files (some f)).storeCalls = [] ∧
    (uploadRoute env pdfParse ensureIndexExists documentId files (some f)).upserts = [] ∧
    (uploadRoute env pdfParse ensureIndexExists documentId files (some f)).files f.path = none ∧
    (∀ p, p ≠ f.path →
      (uploadRoute env pdfParse ensureIndexExists documentId files (some f)).files p = files p) ∧
    (uploadRoute env pdfParse ensureIndexExists documentId files (some f)).status = 500 ∧
    (uploadRoute env pdfParse ensureIndexExists documentId files (some f)).body =
      .error (lit "Server error during upload processing") (some error.message) := by
  have hne : bytes.length ≠ 0 := by omega
  have hT : uploadRoute env pdfParse ensureIndexExists documentId files (some f) =
      uploadCatch files (some f.path) error [] [] := by
    simp only [uploadRoute, hfile, hne, if_false, hfail]
  rw [hT]
  refine ⟨rfl, rfl, uploadCatch_files files f.path error [] [], ?_, rfl, rfl⟩
  intro p hp
  simp [uploadCatch, existsSync, hfile, unlinkSync, hp]

/-- Witness of C13: the three-byte file `uploads/a.pdf` with a parser that
throws on both attempts. -/
theorem uploadRoute_extraction_failure_witness :
    demoFiles (lit "uploads/a.pdf") = some [37, 80, 68] ∧
    (extractTextFromPDF demoFiles demoBrokenParse (lit "uploads/a.pdf")).result =
      .error (extractionError { message := lit "bad XRef" }) ∧
    (uploadRoute demoServices demoBrokenParse (.ok ()) (lit "doc") demoFiles
      (some { path := lit "uploads/a.pdf", originalname := lit "a.pdf" })).storeCalls = [] ∧
    (uploadRoute demoServices demoBrokenParse (.ok ()) (lit "doc") demoFiles
      (some { path := lit "uploads/a.pdf", originalname := lit "a.pdf" })).files
        (lit "uploads/a.pdf") = none ∧
    (uploadRoute demoServices demoBrokenParse (.ok ()) (lit "doc") demoFiles
      (some { path := lit "uploads/a.pdf", originalname := lit "a.pdf" })).status = 500 :=
  ⟨by decide, rfl,
    (uploadRoute_extraction_failure demoServices demoBrokenParse (.ok ()) (lit "doc") demoFiles
      { path := lit "uploads/a.pdf", originalname := lit "a.pdf" } [37, 80, 68]
      (extractionError { message := lit "bad XRef" }) (by decide) (by decide) rfl).1,
    (uploadRoute_extraction_failure demoServices demoBrokenParse (.ok ()) (lit "doc") demoFiles
      { path := lit "uploads/a.pdf", originalname := lit "a.pdf" } [37, 80, 68]
      (extractionError { message := lit "bad XRef" }) (by decide) (by decide) rfl).2.2.1,
    (uploadRoute_extraction_failure demoServices demoBrokenParse (.ok ()) (lit "doc") demoFiles
      { path := lit "uploads/a.pdf", originalname := lit "a.pdf" } [37, 80, 68]
      (extractionError { message := lit "bad XRef" }) (by decide) (by decide) rfl).2.2.2.2.1⟩

/-- For an upload with a non-empty file, the temporary file is gone when the
response is sent, whether the upload succeeds or fails. -/
theorem uploadRoute_removes_nonempty {F : Type} [LinearOrderedField F] (env : Services F)
    (pdfParse : PdfParse) (ensureIndexExists : Except JsError Unit) (documentId : JStr)
    (files : FileSystem) (f : UploadedFile) (bytes : List Nat)
    (hfile : files f.path = some bytes) (hsize : 0 < bytes.length) :
    (uploadRoute env pdfParse ensureIndexExists documentId files (some f)).files f.path = none ∧
    ((uploadRoute env pdfParse ensureIndexExists documentId files (some f)).status = 200 ∨
      (uploadRoute env pdfParse ensureIndexExists documentId files (some f)).status = 500) := by
  have hne : bytes.length ≠ 0 := by omega
  simp only [uploadRoute, hfile, hne, if_false]
  cases hx : (extractTextFromPDF files pdfParse f.path).result with
  | error e => exact ⟨uploadCatch_files files f.path e [] [], Or.inr rfl⟩
  | ok text =>
    simp only
    cases hs : (processAndStoreDocument env ensureIndexExists documentId
      f.originalname text).failure with
    | none => exact ⟨by simp [unlinkSync], Or.inl rfl⟩
    | some e => exact ⟨by simp [uploadCatch, unlinkSync], Or.inr rfl⟩

/-- C17 (failing input): for an upload of the empty file `uploads/empty.pdf` the
route responds with status 400 and the file is still in the uploads directory
when the response is sent; the upload of the non-empty file `uploads/a.pdf`
succeeds with status 200 and removes the file. -/
theorem uploadRoute_empty_file_stays :
    demoFiles (lit "uploads/empty.pdf") = some [] ∧
    (uploadRoute demoServices demoParse (.ok ()) (lit "doc") demoFiles
      (some { path := lit "uploads/empty.pdf", originalname := lit "e.pdf" })).status = 400 ∧
    (uploadRoute demoServices demoParse (.ok ()) (lit "doc") demoFiles
      (some { path := lit "uploads/empty.pdf", originalname := lit "e.pdf" })).body =
        .error (lit "Uploaded file is empty") none ∧
    (uploadRoute demoServices demoParse (.ok ()) (lit "doc") demoFiles
      (some { path := lit "uploads/empty.pdf", originalname := lit "e.pdf" })).files
        (lit "uploads/empty.pdf") = some [] ∧
    existsSync (uploadRoute demoServices demoParse (.ok ()) (lit "doc") demoFiles
      (some { path := lit "uploads/empty.pdf", originalname := lit "e.pdf" })).files
        (lit "uploads/empty.pdf") = true ∧
    (uploadRoute demoServices demoParse (.ok ()) (lit "doc") demoFiles
      (some { path := lit "uploads/a.pdf", originalname := lit "a.pdf" })).status = 200 ∧
    (uploadRoute demoServices demoParse (.ok ()) (lit "doc") demoFiles
      (some { path := lit "uploads/a.pdf", originalname := lit "a.pdf" })).files
        (lit "uploads/a.pdf") = none := by
  refine ⟨by decide, by decide, by decide, by decide, by decide, by decide, by decide⟩

end ChatWithPdf
